import Mathlib

/-!
Verification of the btree repository (package btre, src/btree.go): a
copy-on-write B-tree over an ordered element interface.

Shallow embedding conventions:
* The element interface Item (one method, Less) is modelled by a linear
  order on a type alpha; `x < y` plays the role of `x.Less(y)` and the
  concrete instantiation Int mirrors the repository's own Int item type.
* Go slices of items / child pointers become Lean lists.  Slice-index
  accesses that Go guards by construction are modelled with Option:
  an out-of-range access (a Go runtime panic) is the value `none`.
* In-place mutation through pointers becomes explicit value passing:
  whenever a Go method mutates a child in place through an aliased
  pointer, the Lean model writes the new child value back into the
  parent with List.set at the same position.
* Node-valued general recursion (insert / remove, which recurse on
  nodes rebuilt after splitting or rebalancing) takes an explicit fuel
  argument; exhausted fuel also yields `none`.  All concrete runs below
  are given ample fuel.
* A copyOnWriteContext is identified by a numeric token; a node's cow
  field is `Option Nat` (`none` models the nil context written by
  freeNode).  The freelist interplay of newNode is irrelevant to node
  contents (a recycled node has been cleared), so node-level operations
  allocate fresh empty nodes; the FreeList itself is modelled separately
  for the pool claims.
-/

set_option linter.unusedSectionVars false

namespace Btre

/-- Go items.insertAt / children.insertAt: append one slot, shift the
suffix right, write at index.  Writing past the extended length is a Go
runtime fault, modelled as none. -/
def insertAt {β : Type} (l : List β) (index : Nat) (x : β) : Option (List β) :=
  if index ≤ l.length then some (l.take index ++ x :: l.drop index) else none

/-- Go items.removeAt / children.removeAt: read index (fault when out of
range), shift the suffix left, drop the last slot. -/
def removeAt {β : Type} (l : List β) (index : Nat) : Option (β × List β) :=
  if h : index < l.length then some (l.get ⟨index, h⟩, l.eraseIdx index) else none

/-- Go items.pop / children.pop: remove and return the last element
(fault on an empty slice). -/
def popLast {β : Type} (l : List β) : Option (β × List β) :=
  match l.getLast? with
  | none => none
  | some x => some (x, l.dropLast)

/-- Go items.truncate / children.truncate: keep the entries before
index (the cleared tail only matters to the garbage collector). -/
def truncate {β : Type} (l : List β) (index : Nat) : List β :=
  l.take index

/-- Go sort.Search's loop, with an explicit fuel that dominates the
interval width j - i (the loop halves the interval each step, so any
fuel of at least j - i steps is ample): binary search for the least
index at which f holds, assuming f monotone. -/
def searchLoop (f : Nat → Bool) : Nat → Nat → Nat → Nat
  | 0, i, _ => i
  | fuel + 1, i, j =>
    if i < j then
      let m := (i + j) / 2
      if f m then searchLoop f fuel i m else searchLoop f fuel (m + 1) j
    else i

/-- Go sort.Search(n, f). -/
def sortSearch (n : Nat) (f : Nat → Bool) : Nat :=
  searchLoop f n 0 n

variable {α : Type} [LinearOrder α]

/-- Go items.find: sort.Search for the first index whose element is
greater than item, then report the previous slot when it holds an
element not less than item (equal under the mutual-not-less convention). -/
def itemsFind (l : List α) (x : α) : Nat × Bool :=
  let n := sortSearch l.length (fun k => decide (x < l.getD k x))
  if 0 < n ∧ ¬ l.getD (n - 1) x < x then (n - 1, true) else (n, false)

/-- Go node: an item slice, a child slice and the owning
copyOnWriteContext (none models a nil context pointer). -/
inductive Node (α : Type) : Type where
  | mk : List α → List (Node α) → Option Nat → Node α

def Node.items : Node α → List α
  | .mk its _ _ => its

def Node.children : Node α → List (Node α)
  | .mk _ chs _ => chs

def Node.cow : Node α → Option Nat
  | .mk _ _ c => c

/-- In-order contents of a node: children interleaved with items
(leaf: just the items).  flattenL walks the two slices together. -/
def flattenL : List α → List (Node α) → List α
  | its, [] => its
  | [], .mk cits cchs _ :: _ => flattenL cits cchs
  | x :: its, .mk cits cchs _ :: chs => flattenL cits cchs ++ x :: flattenL its chs
termination_by its chs => sizeOf its + sizeOf chs
decreasing_by all_goals (simp only [Node.mk.sizeOf_spec, List.cons.sizeOf_spec, List.nil.sizeOf_spec]; omega)

/-- In-order contents of a node. -/
def flattenN (n : Node α) : List α :=
  flattenL n.items n.children

/-- Height of a node (a leaf has height 1); heightL is the maximum
height among a child slice. -/
def heightL : List (Node α) → Nat
  | [] => 0
  | .mk _ cchs _ :: chs => max (heightL cchs + 1) (heightL chs)
termination_by chs => sizeOf chs
decreasing_by all_goals (simp only [Node.mk.sizeOf_spec, List.cons.sizeOf_spec, List.nil.sizeOf_spec]; omega)

def heightN (n : Node α) : Nat :=
  heightL n.children + 1

/-- Tail of an interleaving after its leading child was consumed:
nothing when the items are exhausted, else the next item followed by
the remaining interleave.  flattenL its (c :: chs) is flattenN c
followed by flattenT its chs. -/
def flattenT : List α → List (Node α) → List α
  | [], _ => []
  | x :: its, chs => x :: flattenL its chs

/-- Interleave of equally many items and children where every child
comes before its item (the prefix of a node's flatten up to a cut). -/
def flattenP : List α → List (Node α) → List α
  | x :: its, .mk cits cchs _ :: chs => flattenL cits cchs ++ x :: flattenP its chs
  | _, _ => []
termination_by its chs => sizeOf its + sizeOf chs
decreasing_by all_goals (simp only [Node.mk.sizeOf_spec, List.cons.sizeOf_spec, List.nil.sizeOf_spec]; omega)

/-- Structural well-formedness at height h (the spec's node validity,
section 3): a leaf has height 1; an internal node has exactly one more
child than it has items and all children well-formed at the same
height below it.  This combines slice alignment with the balanced
(uniform leaf depth) shape of a B-tree. -/
inductive WFT : Nat → Node α → Prop where
  | leaf {its : List α} {c : Option Nat} : WFT 1 (.mk its [] c)
  | node {h : Nat} {its : List α} {chs : List (Node α)} {c : Option Nat} :
      chs.length = its.length + 1 →
      (∀ ch ∈ chs, WFT h ch) →
      WFT (h + 1) (.mk its chs c)

/-- Go (*node).mutableFor: return the node itself when the context
matches, otherwise a copy of both slices tagged with the new context. -/
def Node.mutableFor (n : Node α) (c : Nat) : Node α :=
  if n.cow = some c then n else .mk n.items n.children (some c)

/-- Go (*node).mutableChild(i): make children[i] mutable and store it
back; faults when i is out of range.  Returns the updated parent and
the (aliased) child. -/
def Node.mutableChild (n : Node α) (i : Nat) : Option (Node α × Node α) :=
  match n.children.get? i, n.cow with
  | some ch, some c =>
    let c2 := ch.mutableFor c
    some (.mk n.items (n.children.set i c2) n.cow, c2)
  | _, _ => none

/-- Go (*node).split(i): extract items[i], move the suffixes into a
fresh node owned by the same context, truncate the original.  Returns
(truncated node, promoted item, new right sibling). -/
def Node.split (n : Node α) (i : Nat) : Option (Node α × α × Node α) :=
  match n.items.get? i with
  | none => none
  | some item =>
    let next : Node α :=
      .mk (n.items.drop (i + 1))
        (if 0 < n.children.length then n.children.drop (i + 1) else []) n.cow
    let n2 : Node α :=
      .mk (truncate n.items i)
        (if 0 < n.children.length then truncate n.children (i + 1) else n.children) n.cow
    some (n2, item, next)

/-- Go (*node).maybeSplitChild(i, maxItems): reading children[i] faults
when i is out of range (in particular on every leaf); otherwise split
the child when it is full, promoting its middle item into this node. -/
def Node.maybeSplitChild (n : Node α) (i maxItems : Nat) : Option (Bool × Node α) :=
  match n.children.get? i with
  | none => none
  | some ch =>
    if ch.items.length < maxItems then some (false, n)
    else
      match n.mutableChild i with
      | none => none
      | some (n1, first) =>
        match first.split (maxItems / 2) with
        | none => none
        | some (first2, item, second) =>
          let n2 : Node α := .mk n1.items (n1.children.set i first2) n1.cow
          match insertAt n2.items i item with
          | none => none
          | some its2 =>
            match insertAt n2.children (i + 1) second with
            | none => none
            | some chs2 => some (true, .mk its2 chs2 n2.cow)

/-- Go (*node).insert(item, maxItems), fuelled.  Faithful to the source
including its missing early return: after the leaf-case insertAt the
code falls through into maybeSplitChild, which reads children[i] of the
(childless) leaf and faults. -/
def Node.insert : Nat → Node α → α → Nat → Option (Node α × Option α)
  | 0, _, _, _ => none
  | fuel + 1, n, item, maxItems =>
    let fr := itemsFind n.items item
    if fr.2 then
      match n.items.get? fr.1 with
      | none => none
      | some out => some (.mk (n.items.set fr.1 item) n.children n.cow, some out)
    else
      let step1 : Option (Node α) :=
        if n.children.length = 0 then
          (insertAt n.items fr.1 item).map fun its => Node.mk its n.children n.cow
        else some n
      match step1 with
      | none => none
      | some n1 =>
        match n1.maybeSplitChild fr.1 maxItems with
        | none => none
        | some (didSplit, n2) =>
          let desc : Nat → Option (Node α × Option α) := fun i =>
            match n2.mutableChild i with
            | none => none
            | some (n3, child) =>
              match Node.insert fuel child item maxItems with
              | none => none
              | some (child2, out) =>
                some (.mk n3.items (n3.children.set i child2) n3.cow, out)
          if didSplit then
            match n2.items.get? fr.1 with
            | none => none
            | some inTree =>
              if item < inTree then desc fr.1
              else if inTree < item then desc (fr.1 + 1)
              else
                some (.mk (n2.items.set fr.1 item) n2.children n2.cow, some inTree)
          else desc fr.1

/-- Go toRemove. -/
inductive ToRemove : Type where
  | removeItem
  | removeMin
  | removeMax
deriving DecidableEq

/-- Inlined body of the steal-from-left-sibling branch of Go
(*node).growChildAndRemove: move the left sibling's last item up into
the parent slot i-1, the old parent item down to the front of child i,
and (when internal) the sibling's last child to the front of child i.
Returns the rebalanced parent. -/
def Node.stealLeft (n : Node α) (i : Nat) : Option (Node α) :=
  match n.mutableChild i with
  | none => none
  | some (n1, child) =>
    match n1.mutableChild (i - 1) with
    | none => none
    | some (n2, stealFrom) =>
      match popLast stealFrom.items with
      | none => none
      | some (stolenItem, sfIts) =>
        match n2.items.get? (i - 1) with
        | none => none
        | some sep =>
          match insertAt child.items 0 sep with
          | none => none
          | some cIts =>
            let its3 := n2.items.set (i - 1) stolenItem
            if 0 < stealFrom.children.length then
              match popLast stealFrom.children with
              | none => none
              | some (sfLastCh, sfChs) =>
                match insertAt child.children 0 sfLastCh with
                | none => none
                | some cChs =>
                  let child2 : Node α := .mk cIts cChs child.cow
                  let sf2 : Node α := .mk sfIts sfChs stealFrom.cow
                  some (.mk its3 ((n2.children.set i child2).set (i - 1) sf2) n2.cow)
            else
              let child2 : Node α := .mk cIts child.children child.cow
              let sf2 : Node α := .mk sfIts stealFrom.children stealFrom.cow
              some (.mk its3 ((n2.children.set i child2).set (i - 1) sf2) n2.cow)

/-- Inlined body of the steal-from-right-sibling branch of Go
(*node).growChildAndRemove: symmetric to stealLeft, appending the
parent item i to child i and promoting the right sibling's first item. -/
def Node.stealRight (n : Node α) (i : Nat) : Option (Node α) :=
  match n.mutableChild i with
  | none => none
  | some (n1, child) =>
    match n1.mutableChild (i + 1) with
    | none => none
    | some (n2, stealFrom) =>
      match removeAt stealFrom.items 0 with
      | none => none
      | some (stolenItem, sfIts) =>
        match n2.items.get? i with
        | none => none
        | some sep =>
          let cIts := child.items ++ [sep]
          let its3 := n2.items.set i stolenItem
          if 0 < stealFrom.children.length then
            match removeAt stealFrom.children 0 with
            | none => none
            | some (sfFirstCh, sfChs) =>
              let child2 : Node α := .mk cIts (child.children ++ [sfFirstCh]) child.cow
              let sf2 : Node α := .mk sfIts sfChs stealFrom.cow
              some (.mk its3 ((n2.children.set i child2).set (i + 1) sf2) n2.cow)
          else
            let child2 : Node α := .mk cIts child.children child.cow
            let sf2 : Node α := .mk sfIts stealFrom.children stealFrom.cow
            some (.mk its3 ((n2.children.set i child2).set (i + 1) sf2) n2.cow)

/-- Inlined body of the merge branch of Go (*node).growChildAndRemove
(after the index was normalised): absorb the parent item i and the
whole right sibling into child i, dropping both from the parent (the
emptied sibling goes back to the pool, which does not affect the tree
value). -/
def Node.mergeRight (n : Node α) (i : Nat) : Option (Node α) :=
  match n.mutableChild i with
  | none => none
  | some (n1, child) =>
    match removeAt n1.items i with
    | none => none
    | some (mergeItem, its2) =>
      match removeAt n1.children (i + 1) with
      | none => none
      | some (mergeChild, chs2) =>
        let child2 : Node α :=
          .mk (child.items ++ mergeItem :: mergeChild.items)
            (child.children ++ mergeChild.children) child.cow
        some (.mk its2 (chs2.set i child2) n1.cow)

/-- The rebalancing part of Go (*node).growChildAndRemove(i, item,
minItems, typ): steal from the left sibling, else from the right
sibling, else merge with the right neighbour (normalising i first).
The branch conditions read sibling slices (faulting out of range) in
the same short-circuit order as the Go conditionals.  Go's trailing
n.remove(item, minItems, typ) retry is performed by Node.remove at the
call site, which keeps the recursion structural in the fuel. -/
def Node.growChildRebalance (n : Node α) (i : Nat) (minItems : Nat) : Option (Node α) :=
  let condLeft : Option Bool :=
    if i = 0 then some false
    else (n.children.get? (i - 1)).map fun c => decide (minItems < c.items.length)
  match condLeft with
  | none => none
  | some true => n.stealLeft i
  | some false =>
    let condRight : Option Bool :=
      if i < n.items.length then
        (n.children.get? (i + 1)).map fun c => decide (minItems < c.items.length)
      else some false
    match condRight with
    | none => none
    | some true => n.stealRight i
    | some false =>
      let i2 := if n.items.length ≤ i then i - 1 else i
      n.mergeRight i2

/-- Go (*node).remove, fuelled; the growChildAndRemove branch
rebalances and then redoes the remove call with the remaining fuel
(the rebalance-then-retry loop of the source).  The item argument is
optional because the internal removeMax recursion passes Go nil.  When
the predecessor pull inside the found branch returns Go nil
(impossible on well-formed trees), the model also faults rather than
store a nil item. -/
def Node.remove : Nat → Node α → Option α → Nat → ToRemove → Option (Node α × Option α)
  | 0, _, _, _, _ => none
  | fuel + 1, n, item, minItems, typ =>
    let base : Option (Sum (Node α × Option α) (Nat × Bool)) :=
      match typ with
      | .removeMax =>
        if n.children.length = 0 then
          match popLast n.items with
          | none => none
          | some (out, its2) => some (.inl (.mk its2 n.children n.cow, some out))
        else some (.inr (n.items.length, false))
      | .removeMin =>
        if n.children.length = 0 then
          match removeAt n.items 0 with
          | none => none
          | some (out, its2) => some (.inl (.mk its2 n.children n.cow, some out))
        else some (.inr (0, false))
      | .removeItem =>
        match item with
        | none => if n.items.length = 0 then some (.inr (0, false)) else none
        | some x =>
          let fr := itemsFind n.items x
          if n.children.length = 0 then
            if fr.2 then
              match removeAt n.items fr.1 with
              | none => none
              | some (out, its2) => some (.inl (.mk its2 n.children n.cow, some out))
            else some (.inl (n, none))
          else some (.inr fr)
    match base with
    | none => none
    | some (.inl r) => some r
    | some (.inr (i, found)) =>
      match n.children.get? i with
      | none => none
      | some ci =>
        if ci.items.length ≤ minItems then
          match n.growChildRebalance i minItems with
          | none => none
          | some n4 => Node.remove fuel n4 item minItems typ
        else
          match n.mutableChild i with
          | none => none
          | some (n1, child) =>
            if found then
              match n1.items.get? i with
              | none => none
              | some out =>
                match Node.remove fuel child none minItems .removeMax with
                | none => none
                | some (child2, pred) =>
                  match pred with
                  | none => none
                  | some p =>
                    some (.mk (n1.items.set i p) (n1.children.set i child2) n1.cow, some out)
            else
              match Node.remove fuel child item minItems typ with
              | none => none
              | some (child2, out) =>
                some (.mk n1.items (n1.children.set i child2) n1.cow, out)

/-- Go (*node).get: find in this node, else descend, fuelled. -/
def Node.getNode : Nat → Node α → α → Option (Option α)
  | 0, _, _ => none
  | fuel + 1, n, key =>
    let fr := itemsFind n.items key
    if fr.2 then
      match n.items.get? fr.1 with
      | none => none
      | some out => some (some out)
    else if 0 < n.children.length then
      match n.children.get? fr.1 with
      | none => none
      | some c => Node.getNode fuel c key
    else some none

/-- Go func min(n): walk to the leftmost leaf and return its first
item; nil when the tree (or that leaf) is empty.  Fuelled walk. -/
def nodeMin : Nat → Option (Node α) → Option (Option α)
  | 0, _ => none
  | _, none => some none
  | fuel + 1, some n =>
    match n.children.get? 0 with
    | some c => nodeMin fuel (some c)
    | none =>
      match n.items.get? 0 with
      | some x => some (some x)
      | none => some none

/-- Go func max(n): walk to the rightmost leaf and return its last
item; nil when the tree (or that leaf) is empty.  Fuelled walk. -/
def nodeMax : Nat → Option (Node α) → Option (Option α)
  | 0, _ => none
  | _, none => some none
  | fuel + 1, some n =>
    match n.children.getLast? with
    | some c => nodeMax fuel (some c)
    | none =>
      match n.items.getLast? with
      | some x => some (some x)
      | none => some none

/-- The ascend loop of Go (*node).iterate, modelled by structural
recursion over the item / child suffixes from the start index (the
loop body reads items[i] and children[i]; after the loop the last
child is visited — on slice-aligned nodes the suffix lists walk
exactly those positions).  Recursion into a child node is abstracted
as the iterChild argument, which iterAsc instantiates with itself at
the next-smaller fuel.  The loop body inlines, in source order, the
include-start skip, the stop bound check and the callback. -/
def ascLoop {σ : Type} (iterChild : Node α → Bool → σ → Option (σ × Bool × Bool))
    (f : σ → α → σ × Bool) (start stop : Option α) (includeStart : Bool) :
    List α → List (Node α) → Bool → σ → Option (σ × Bool × Bool)
  | [], chs, hit, s =>
    match chs with
    | [] => some (s, hit, true)
    | c :: _ => iterChild c hit s
  | x :: its, [], hit, s =>
    if !includeStart && !hit && (match start with
        | some a => decide (¬ a < x)
        | none => false) then
      ascLoop iterChild f start stop includeStart its [] true s
    else if (match stop with
        | some b => decide (¬ x < b)
        | none => false) then some (s, true, false)
    else
      let r := f s x
      if r.2 then ascLoop iterChild f start stop includeStart its [] true r.1
      else some (r.1, true, false)
  | x :: its, c :: chs2, hit, s =>
    match iterChild c hit s with
    | none => none
    | some (s1, hit1, ok) =>
      if ok then
        if !includeStart && !hit1 && (match start with
            | some a => decide (¬ a < x)
            | none => false) then
          ascLoop iterChild f start stop includeStart its chs2 true s1
        else if (match stop with
            | some b => decide (¬ x < b)
            | none => false) then some (s1, true, false)
        else
          let r := f s1 x
          if r.2 then ascLoop iterChild f start stop includeStart its chs2 true r.1
          else some (r.1, true, false)
      else some (s1, hit1, false)

/-- Go (*node).iterate restricted to the ascend direction (the only
direction the claims exercise).  The iterator callback is a state
machine f so that a closure over mutable state (the way the repository
uses ItemIterator) can be instantiated; it returns the new state and
the continue flag.  Result: (final state, hit flag, ok flag), where
ok = false propagates an early stop.  Fuel bounds recursion into
children; the node height is ample fuel. -/
def iterAsc {σ : Type} (f : σ → α → σ × Bool) (start stop : Option α)
    (includeStart : Bool) : Nat → Node α → Bool → σ → Option (σ × Bool × Bool)
  | 0, _, _, _ => none
  | fuel + 1, n, hit, s =>
    let index := match start with
      | some a => (itemsFind n.items a).1
      | none => 0
    ascLoop (iterAsc f start stop includeStart fuel) f start stop includeStart
      (n.items.drop index) (n.children.drop index) hit s

/-- Go FreeList: the node pool.  The Go slice is created with
make(len 0, cap size) and only appended to while len < cap, so its
capacity stays at the creation size; the model keeps that capacity as
a field. -/
structure FreeList (α : Type) : Type where
  freelist : List (Node α)
  capacity : Nat

/-- Go NewFreeList(size). -/
def NewFreeList (size : Nat) : FreeList α :=
  ⟨[], size⟩

/-- Go (*FreeList).newNode: pop the last pooled node, else a fresh
empty node. -/
def FreeList.newNode (f : FreeList α) : Node α × FreeList α :=
  match f.freelist.getLast? with
  | none => (.mk [] [] none, f)
  | some n => (n, ⟨f.freelist.dropLast, f.capacity⟩)

/-- Go (*FreeList).freeNode: append when below capacity and report
whether the node was accepted. -/
def FreeList.freeNode (f : FreeList α) (n : Node α) : Bool × FreeList α :=
  if f.freelist.length < f.capacity then (true, ⟨f.freelist ++ [n], f.capacity⟩)
  else (false, f)

/-- Go freeType. -/
inductive FType : Type where
  | ftFreelistFull
  | ftStored
  | ftNotOwned
deriving DecidableEq

/-- Go (*copyOnWriteContext).freeNode: only an owned node is cleared
and offered to the pool; a foreign node is left untouched (ftNotOwned).
Returns the kind, the node value after the call and the pool after the
call. -/
def cowFreeNode (c : Nat) (n : Node α) (f : FreeList α) : FType × Node α × FreeList α :=
  if n.cow = some c then
    let cleared : Node α := .mk (truncate n.items 0) (truncate n.children 0) none
    let r := f.freeNode cleared
    (if r.1 then .ftStored else .ftFreelistFull, cleared, r.2)
  else (.ftNotOwned, n, f)

/-- Go BTree: degree, length, nullable root and the current write
context (a token). -/
structure BTree (α : Type) : Type where
  degree : Nat
  length : Nat
  root : Option (Node α)
  cow : Nat

/-- Go (*BTree).maxItems. -/
def BTree.maxItems (t : BTree α) : Nat :=
  t.degree * 2 - 1

/-- Go (*BTree).minItems. -/
def BTree.minItems (t : BTree α) : Nat :=
  t.degree - 1

/-- Go (*BTree).Clone: both handles keep the same root, degree and
length but receive fresh write contexts (the caller supplies the two
fresh tokens, standing for the two new copyOnWriteContext values);
no node is touched. -/
def BTree.Clone (t : BTree α) (c1 c2 : Nat) : BTree α × BTree α :=
  (⟨t.degree, t.length, t.root, c1⟩, ⟨t.degree, t.length, t.root, c2⟩)

/-- Go (*BTree).ReplaceOrInsert: nil item is a fatal error (none);
a missing root is created with the single item; a full root is split
under a new root first; then the node-level insert runs and the length
grows exactly when it reports no previous item. -/
def BTree.ReplaceOrInsert (fuel : Nat) (t : BTree α) (item : Option α) :
    Option (BTree α × Option α) :=
  match item with
  | none => none
  | some x =>
    match t.root with
    | none =>
      some (⟨t.degree, t.length + 1, some (.mk [x] [] (some t.cow)), t.cow⟩, none)
    | some r0 =>
      let r1 := r0.mutableFor t.cow
      let root2 : Option (Node α) :=
        if t.maxItems ≤ r1.items.length then
          match r1.split (t.maxItems / 2) with
          | none => none
          | some (left, item2, second) =>
            some (.mk [item2] [left, second] (some t.cow))
        else some r1
      match root2 with
      | none => none
      | some r2 =>
        match Node.insert fuel r2 x t.maxItems with
        | none => none
        | some (r3, out) =>
          some (⟨t.degree,
                 (match out with | none => t.length + 1 | some _ => t.length),
                 some r3, t.cow⟩, out)

/-- Go (*BTree).deleteItem: empty tree is a no-op; otherwise run the
node-level remove on the mutable root, collapse an emptied internal
root onto its only child (retiring the old root to the pool does not
change the tree value) and decrement the length when an item came out. -/
def BTree.deleteItem (fuel : Nat) (t : BTree α) (item : Option α) (typ : ToRemove) :
    Option (BTree α × Option α) :=
  match t.root with
  | none => some (t, none)
  | some r0 =>
    if r0.items.length = 0 then some (t, none)
    else
      let r1 := r0.mutableFor t.cow
      match Node.remove fuel r1 item t.minItems typ with
      | none => none
      | some (r2, out) =>
        let newRoot : Option (Node α) :=
          if r2.items.length = 0 ∧ 0 < r2.children.length then r2.children.get? 0
          else some r2
        some (⟨t.degree,
               (match out with | none => t.length | some _ => t.length - 1),
               newRoot, t.cow⟩, out)

/-- Go (*BTree).Delete. -/
def BTree.Delete (fuel : Nat) (t : BTree α) (item : α) : Option (BTree α × Option α) :=
  t.deleteItem fuel (some item) .removeItem

/-- Go (*BTree).DeleteMin. -/
def BTree.DeleteMin (fuel : Nat) (t : BTree α) : Option (BTree α × Option α) :=
  t.deleteItem fuel none .removeMin

/-- Go (*BTree).DeleteMax. -/
def BTree.DeleteMax (fuel : Nat) (t : BTree α) : Option (BTree α × Option α) :=
  t.deleteItem fuel none .removeMax

/-- Go (*BTree).AscendRange. -/
def BTree.AscendRange {σ : Type} (fuel : Nat) (t : BTree α) (greaterOrEqual lessThan : α)
    (f : σ → α → σ × Bool) (s : σ) : Option σ :=
  match t.root with
  | none => some s
  | some r =>
    (iterAsc f (some greaterOrEqual) (some lessThan) true fuel r false s).map
      fun res => res.1

/-- Go (*BTree).Get. -/
def BTree.GetItem (fuel : Nat) (t : BTree α) (key : α) : Option (Option α) :=
  match t.root with
  | none => some none
  | some r => Node.getNode fuel r key

/-- Go (*BTree).Len. -/
def BTree.Len (t : BTree α) : Nat :=
  t.length

/-- Modelled from the spec sentence for find: the first index n such
that target < items[n], or the slice length when no such index exists.
Used only to compare the specification's wording against itemsFind. -/
def specFindIndex (l : List α) (x : α) : Nat :=
  (l.takeWhile fun y => decide (¬ x < y)).length

/-- An empty tree of degree 2 (what New(2) builds). -/
def emptyDeg2 : BTree Int :=
  ⟨2, 0, none, 0⟩

/-- A degree-2 tree holding 1, 2, 3 as a root separated by two leaves;
its shape is exactly what the original google btree produces and it
satisfies the structural invariants of the spec. -/
def treeThree : BTree Int :=
  ⟨2, 3, some (.mk [2] [.mk [1] [] (some 0), .mk [3] [] (some 0)] (some 0)), 0⟩

/-- A tree of degree 51 holding 1..100 in a single (legal) root leaf. -/
def treeHundred : BTree Int :=
  ⟨51, 100, some (.mk ((List.range 100).map fun k => (k : Int) + 1) [] (some 0)), 0⟩

/-- The tree value produced by deleting the absent item 5 from
treeThree: the two leaves were merged into the root. -/
def treeThreeMerged : BTree Int :=
  ⟨2, 3, some (.mk [1, 2, 3] [] (some 0)), 0⟩

/-- Item-count invariant below the root: every node of the subtree
holds at least m items (the spec's lower bound, which holds for every
node except the root). -/
inductive IC (m : Nat) : Node α → Prop where
  | mk {its : List α} {chs : List (Node α)} {cc : Option Nat} :
      m ≤ its.length → (∀ c ∈ chs, IC m c) → IC m (.mk its chs cc)

/-- Spec-modelled callback runner (section 5 of the spec): invoke the
iterator once per listed element, in order, stopping as soon as it
returns false; reports whether the whole list was consumed. -/
def runSeq {σ : Type} (f : σ → α → σ × Bool) : σ → List α → σ × Bool
  | s, [] => (s, true)
  | s, y :: ys =>
    let r := f s y
    if r.2 then runSeq f r.1 ys else (r.1, false)

/-- Spec-modelled ascend machine: walk the listed elements in order;
an element at or past the upper bound stops the walk (reported hit,
not ok), otherwise the iterator runs and a false return also stops.
Mirrors the observable behaviour the spec ascribes to the ascend
traversal over the in-order elements from the start bound on. -/
def specAscend {σ : Type} (f : σ → α → σ × Bool) (b : α) :
    σ → Bool → List α → σ × Bool × Bool
  | s, hit, [] => (s, hit, true)
  | s, hit, y :: ys =>
    if ¬ y < b then (s, true, false)
    else
      let r := f s y
      if r.2 then specAscend f b r.1 true ys else (r.1, true, false)

/-- The stored contents of a tree, in order (empty when there is no
root). -/
def BTree.contents (t : BTree α) : List α :=
  match t.root with
  | none => []
  | some r => flattenN r

/-- The sort.Search loop invariant: with enough fuel and a predicate
monotone below nn, the loop returns the boundary index - everything
below it fails f, everything from it (below nn) satisfies f. -/
theorem searchLoop_correct (f : Nat → Bool) (nn : Nat)
    (hmono : ∀ u v, u ≤ v → v < nn → f u = true → f v = true) :
    ∀ fuel i j, j ≤ nn → i ≤ j → j - i ≤ fuel →
      (∀ k, k < i → f k = false) → (∀ k, j ≤ k → k < nn → f k = true) →
      (i ≤ searchLoop f fuel i j ∧ searchLoop f fuel i j ≤ j) ∧
        (∀ k, k < searchLoop f fuel i j → f k = false) ∧
        (∀ k, searchLoop f fuel i j ≤ k → k < nn → f k = true) := by
  intro fuel
  induction fuel with
  | zero =>
    intro i j hjn hij hfuel hlo hhi
    have : i = j := by omega
    subst this
    exact ⟨⟨le_refl i, le_refl i⟩, hlo, fun k hk hkn => hhi k hk hkn⟩
  | succ fuel ih =>
    intro i j hjn hij hfuel hlo hhi
    by_cases hlt : i < j
    · have hm : (i + j) / 2 < j := by omega
      have hmi : i ≤ (i + j) / 2 := by omega
      by_cases hf : f ((i + j) / 2) = true
      · have hhi2 : ∀ k, (i + j) / 2 ≤ k → k < nn → f k = true := fun k hk hkn =>
          hmono _ k hk hkn hf
        have hres := ih i ((i + j) / 2) (by omega) hmi (by omega) hlo hhi2
        simp only [searchLoop, hlt, if_true, hf]
        exact ⟨⟨hres.1.1, le_trans hres.1.2 (le_of_lt hm)⟩, hres.2.1, hres.2.2⟩
      · have hf2 : f ((i + j) / 2) = false := by
          cases h : f ((i + j) / 2)
          · rfl
          · exact absurd h hf
        have hlo2 : ∀ k, k < (i + j) / 2 + 1 → f k = false := by
          intro k hk
          rcases Nat.lt_or_ge k i with hki | hki
          · exact hlo k hki
          · cases h : f k
            · rfl
            · have := hmono k ((i + j) / 2) (by omega) (by omega) h
              exact absurd this hf
        have hres := ih ((i + j) / 2 + 1) j hjn (by omega) (by omega) hlo2 hhi
        simp only [searchLoop, hlt, if_true, hf2, if_false]
        exact ⟨⟨le_trans (by omega) hres.1.1, hres.1.2⟩, hres.2.1, hres.2.2⟩
    · have : i = j := by omega
      subst this
      simp only [searchLoop, hlt, if_false]
      exact ⟨⟨le_refl i, le_refl i⟩, hlo, fun k hk hkn => hhi k hk hkn⟩

/-- sort.Search over a slice length: boundary characterisation. -/
theorem sortSearch_correct (f : Nat → Bool) (nn : Nat)
    (hmono : ∀ u v, u ≤ v → v < nn → f u = true → f v = true) :
    sortSearch nn f ≤ nn ∧ (∀ k, k < sortSearch nn f → f k = false) ∧
      (∀ k, sortSearch nn f ≤ k → k < nn → f k = true) := by
  have := searchLoop_correct f nn hmono nn 0 nn (le_refl nn) (Nat.zero_le nn)
    (by omega) (fun k hk => absurd hk (Nat.not_lt_zero k)) (fun k hk hkn => absurd hkn (by omega))
  exact ⟨this.1.2, this.2.1, this.2.2⟩

/-- On a sorted slice, the item-less-than-slot predicate used by find
is monotone in the slot. -/
theorem findPred_mono (l : List α) (x : α) (hs : l.Pairwise (· < ·)) :
    ∀ u v, u ≤ v → v < l.length →
      (fun k => decide (x < l.getD k x)) u = true →
      (fun k => decide (x < l.getD k x)) v = true := by
  intro u v huv hv hu
  have hu2 : u < l.length := lt_of_le_of_lt huv hv
  simp only [decide_eq_true_eq] at hu ⊢
  rw [List.getD_eq_getElem l x hu2] at hu
  rw [List.getD_eq_getElem l x hv]
  rcases Nat.lt_or_ge u v with hlt | hge
  · exact lt_trans hu (List.pairwise_iff_getElem.mp hs u v hu2 hv hlt)
  · have : u = v := by omega
    subst this
    exact hu

/-- Boundary characterisation of the binary search inside find, stated
against the slice entries: before the search index nothing is greater
than x, from it everything is. -/
theorem itemsFind_search_spec (l : List α) (x : α) (hs : l.Pairwise (· < ·)) :
    sortSearch l.length (fun k => decide (x < l.getD k x)) ≤ l.length ∧
      (∀ k (hk : k < l.length),
        k < sortSearch l.length (fun k => decide (x < l.getD k x)) →
          ¬ x < l[k]) ∧
      (∀ k (hk : k < l.length),
        sortSearch l.length (fun k => decide (x < l.getD k x)) ≤ k →
          x < l[k]) := by
  have := sortSearch_correct (fun k => decide (x < l.getD k x)) l.length
    (findPred_mono l x hs)
  refine ⟨this.1, ?_, ?_⟩
  · intro k hk hklt
    have hf := this.2.1 k hklt
    simp only [decide_eq_false_iff_not] at hf
    rwa [List.getD_eq_getElem l x hk] at hf
  · intro k hk hkge
    have hf := this.2.2 k hkge hk
    simp only [decide_eq_true_eq] at hf
    rwa [List.getD_eq_getElem l x hk] at hf

/-- The length of a takeWhile prefix equals any index r below which
the predicate holds and at which (when in range) it fails. -/
theorem length_takeWhile_eq {β : Type} (p : β → Bool) :
    ∀ (l : List β) (r : Nat), r ≤ l.length →
      (∀ k (hk : k < l.length), k < r → p l[k] = true) →
      (∀ hr : r < l.length, p l[r] = false) →
      (l.takeWhile p).length = r := by
  intro l
  induction l with
  | nil =>
    intro r hr _ _
    simp at hr
    simp [hr]
  | cons a l ih =>
    intro r hr h1 h2
    cases r with
    | zero =>
      have := h2 (by simp)
      simp only [List.getElem_cons_zero] at this
      simp [List.takeWhile, this]
    | succ r =>
      have ha : p a = true := by
        have := h1 0 (by simp) (Nat.succ_pos r)
        simpa using this
      have hrec := ih r (by simpa using hr)
        (fun k hk hkr => by
          have := h1 (k + 1) (by simpa using hk) (by omega)
          simpa using this)
        (fun hrl => by
          have := h2 (by simpa using hrl)
          simpa using this)
      simp [List.takeWhile, ha, hrec]

/-- The spec's first-greater index coincides with the binary search
result on a sorted slice. -/
theorem specFindIndex_eq_search (l : List α) (x : α) (hs : l.Pairwise (· < ·)) :
    specFindIndex l x = sortSearch l.length (fun k => decide (x < l.getD k x)) := by
  obtain ⟨hle, hlo, hhi⟩ := itemsFind_search_spec l x hs
  refine length_takeWhile_eq _ l _ hle ?_ ?_
  · intro k hk hklt
    simp only [decide_eq_true_eq]
    exact hlo k hk hklt
  · intro hr
    simp only [decide_eq_false_iff_not, not_not]
    exact hhi _ hr (le_refl _)

/-- C5 amended: on a sorted duplicate-free slice, find reports found
exactly when an equal element is present; the index is the spec's
first-greater index when the target is absent, and one less (the slot
of the equal element) when it is present. -/
theorem itemsFind_sorted_spec (l : List α) (x : α) (hs : l.Pairwise (· < ·)) :
    (itemsFind l x).2 = decide (x ∈ l) ∧
      (itemsFind l x).1 =
        if x ∈ l then specFindIndex l x - 1 else specFindIndex l x := by
  obtain ⟨hle, hlo, hhi⟩ := itemsFind_search_spec l x hs
  have hspec := specFindIndex_eq_search l x hs
  set r := sortSearch l.length (fun k => decide (x < l.getD k x)) with hr
  by_cases hcond : 0 < r ∧ ¬ l.getD (r - 1) x < x
  · have hr1 : r - 1 < l.length := by omega
    have heq : l[r - 1] = x := by
      have h1 : ¬ x < l[r - 1] := hlo (r - 1) hr1 (by omega)
      have h2 : ¬ l[r - 1] < x := by
        have := hcond.2
        rwa [List.getD_eq_getElem l x hr1] at this
      exact le_antisymm (not_lt.mp h1) (not_lt.mp h2)
    have hmem : x ∈ l := heq ▸ List.getElem_mem hr1
    have hfind : itemsFind l x = (r - 1, true) := by
      simp only [itemsFind, ← hr]
      rw [if_pos hcond]
    rw [hfind, hspec]
    simp [hmem]
  · have hmem : x ∉ l := by
      intro hx
      obtain ⟨k, hk, hget⟩ := List.mem_iff_getElem.mp hx
      rcases Nat.lt_or_ge k r with hkr | hkr
      · have h0r : 0 < r := by omega
        have hr1 : r - 1 < l.length := by omega
        have hhead : ¬ l.getD (r - 1) x < x := by
          rw [List.getD_eq_getElem l x hr1]
          intro hlt2
          rcases Nat.lt_or_ge k (r - 1) with hk1 | hk1
          · have hkk : l[k] < l[r - 1] :=
              List.pairwise_iff_getElem.mp hs k (r - 1) hk hr1 hk1
            rw [hget] at hkk
            exact lt_irrefl x (lt_trans hkk hlt2)
          · have : k = r - 1 := by omega
            subst this
            rw [hget] at hlt2
            exact lt_irrefl x hlt2
        exact hcond ⟨h0r, hhead⟩
      · have := hhi k hk hkr
        rw [hget] at this
        exact lt_irrefl x this
    have hfind : itemsFind l x = (r, false) := by
      simp only [itemsFind, ← hr]
      rw [if_neg hcond]
    rw [hfind, hspec]
    simp [hmem]

/-- Witness for C5's amended statement on the sorted slice 1, 3 with
absent target 2 (index 1, not found). -/
theorem itemsFind_sorted_spec_witness :
    List.Pairwise (· < ·) [(1 : Int), 3] ∧
      ((itemsFind [(1 : Int), 3] 2).2 = decide ((2 : Int) ∈ [(1 : Int), 3]) ∧
        (itemsFind [(1 : Int), 3] 2).1 =
          if (2 : Int) ∈ [(1 : Int), 3] then specFindIndex [(1 : Int), 3] 2 - 1
          else specFindIndex [(1 : Int), 3] 2) :=
  ⟨by decide, itemsFind_sorted_spec [(1 : Int), 3] 2 (by decide)⟩

/-- Defining equation: a leaf flattens to its items. -/
theorem flattenL_nil_right (its : List α) : flattenL its ([] : List (Node α)) = its := by
  cases its <;> simp [flattenL]

/-- Defining equation: with items exhausted, the head child flattens. -/
theorem flattenL_nil_cons (c : Node α) (chs : List (Node α)) :
    flattenL [] (c :: chs) = flattenN c := by
  cases c
  simp [flattenL, flattenN, Node.items, Node.children]

/-- Defining equation: head child, head item, then the rest. -/
theorem flattenL_cons_cons (x : α) (its : List α) (c : Node α) (chs : List (Node α)) :
    flattenL (x :: its) (c :: chs) = flattenN c ++ x :: flattenL its chs := by
  cases c
  simp [flattenL, flattenN, Node.items, Node.children]

theorem flattenT_nil (chs : List (Node α)) : flattenT ([] : List α) chs = [] := by
  simp [flattenT]

theorem flattenT_cons (x : α) (its : List α) (chs : List (Node α)) :
    flattenT (x :: its) chs = x :: flattenL its chs := by
  simp [flattenT]

/-- A flatten with a leading child splits off that child. -/
theorem flattenL_expand (its : List α) (c : Node α) (chs : List (Node α)) :
    flattenL its (c :: chs) = flattenN c ++ flattenT its chs := by
  cases its with
  | nil => rw [flattenL_nil_cons, flattenT_nil, List.append_nil]
  | cons x its => rw [flattenL_cons_cons, flattenT_cons]

theorem flattenP_nil (chs : List (Node α)) : flattenP ([] : List α) chs = [] := by
  simp [flattenP]

theorem flattenP_cons (x : α) (its : List α) (c : Node α) (chs : List (Node α)) :
    flattenP (x :: its) (c :: chs) = flattenN c ++ x :: flattenP its chs := by
  cases c
  simp [flattenP, flattenN, Node.items, Node.children]

/-- Splitting a flatten across an equal-length item / child prefix. -/
theorem flattenL_append_front : ∀ (its1 : List α) (chs1 : List (Node α)) its2 chs2,
    its1.length = chs1.length →
    flattenL (its1 ++ its2) (chs1 ++ chs2) = flattenP its1 chs1 ++ flattenL its2 chs2 := by
  intro its1
  induction its1 with
  | nil =>
    intro chs1 its2 chs2 h
    have : chs1 = [] := by
      cases chs1 with
      | nil => rfl
      | cons c cs => simp at h
    subst this
    simp [flattenP_nil]
  | cons x its ih =>
    intro chs1 its2 chs2 h
    cases chs1 with
    | nil => simp at h
    | cons c chs1 =>
      simp only [List.cons_append, flattenL_cons_cons, flattenP_cons]
      rw [ih chs1 its2 chs2 (by simpa using h)]
      simp

/-- Splitting a flatten after a balanced block (one more child than
items): the block flattens whole, then the tail interleave follows. -/
theorem flattenL_append_block : ∀ (its1 : List α) (chs1 : List (Node α)) its2 chs2,
    chs1.length = its1.length + 1 →
    flattenL (its1 ++ its2) (chs1 ++ chs2) = flattenL its1 chs1 ++ flattenT its2 chs2 := by
  intro its1
  induction its1 with
  | nil =>
    intro chs1 its2 chs2 h
    match chs1, h with
    | [c], _ =>
      simp only [List.nil_append, List.cons_append]
      rw [flattenL_expand, flattenL_nil_cons]
  | cons x its ih =>
    intro chs1 its2 chs2 h
    cases chs1 with
    | nil => simp at h
    | cons c chs1 =>
      simp only [List.cons_append, flattenL_cons_cons]
      rw [ih chs1 its2 chs2 (by simpa using h)]
      simp

/-- Splitting off the last item / child pair of a balanced block. -/
theorem flattenL_last_split (its : List α) (chs : List (Node α)) (x : α) (c : Node α)
    (hlen : chs.length = its.length + 1)
    (hx : its.getLast? = some x) (hc : chs.getLast? = some c) :
    flattenL its chs = flattenL its.dropLast chs.dropLast ++ x :: flattenN c := by
  obtain ⟨its0, rfl⟩ := List.getLast?_eq_some_iff.mp hx
  obtain ⟨chs0, rfl⟩ := List.getLast?_eq_some_iff.mp hc
  have h0 : chs0.length = its0.length + 1 := by
    simp at hlen
    omega
  rw [flattenL_append_block its0 chs0 [x] [c] h0, flattenT_cons, flattenL_nil_cons]
  simp [List.dropLast_concat]

/-- The items of a node form a sublist of its flatten. -/
theorem items_sublist_flattenL : ∀ (chs : List (Node α)) (its : List α),
    List.Sublist its (flattenL its chs) := by
  intro chs
  induction chs with
  | nil =>
    intro its
    rw [flattenL_nil_right]
  | cons c chs ih =>
    intro its
    cases its with
    | nil => simp
    | cons x its =>
      rw [flattenL_cons_cons]
      exact ((ih its).cons₂ x).trans (List.sublist_append_right _ _)

/-- A child's flatten is a sublist of the node's flatten. -/
theorem child_flatten_sublist : ∀ (its : List α) (chs : List (Node α)) (c : Node α),
    chs.length = its.length + 1 → c ∈ chs →
      List.Sublist (flattenN c) (flattenL its chs) := by
  intro its
  induction its with
  | nil =>
    intro chs c hlen hc
    match chs, hlen with
    | [c0], _ =>
      simp at hc
      subst hc
      rw [flattenL_nil_cons]
  | cons x its ih =>
    intro chs c hlen hc
    cases chs with
    | nil => simp at hlen
    | cons c0 chs =>
      rw [flattenL_cons_cons]
      rcases List.mem_cons.mp hc with rfl | hc2
      · exact List.sublist_append_left _ _
      · exact ((ih chs c (by simpa using hlen) hc2).trans
          (List.sublist_cons_self x _)).trans (List.sublist_append_right _ _)

/-- WFT 0 is impossible. -/
theorem WFT_zero (n : Node α) : ¬ WFT 0 n := by
  intro h
  cases h

/-- Under WFT, a node is a leaf exactly at height 1. -/
theorem WFT_leaf_iff {h : Nat} {n : Node α} (hw : WFT h n) :
    n.children = [] ↔ h = 1 := by
  cases hw with
  | leaf => simp [Node.children]
  | @node hh its chs c hlen hch =>
    simp only [Node.children]
    constructor
    · intro hemp
      rw [hemp] at hlen
      simp at hlen
    · intro h1
      have : hh = 0 := by omega
      subst this
      cases chs with
      | nil => rfl
      | cons c0 cs => exact absurd (hch c0 (by simp)) (WFT_zero c0)

/-- mutableFor keeps both slices, so it keeps WFT. -/
theorem WFT_mutableFor {h : Nat} {n : Node α} (c : Nat) (hw : WFT h n) :
    WFT h (n.mutableFor c) := by
  unfold Node.mutableFor
  split
  · exact hw
  · cases hw with
    | leaf => exact WFT.leaf
    | node hlen hch => exact WFT.node hlen hch

/-- mutableFor keeps the flatten. -/
theorem flattenN_mutableFor (n : Node α) (c : Nat) :
    flattenN (n.mutableFor c) = flattenN n := by
  unfold Node.mutableFor
  split
  · rfl
  · cases n
    rfl

/-- mutableFor keeps the items slice. -/
theorem items_mutableFor (n : Node α) (c : Nat) :
    (n.mutableFor c).items = n.items := by
  unfold Node.mutableFor
  split
  · rfl
  · cases n
    rfl

/-- mutableFor keeps the children slice. -/
theorem children_mutableFor (n : Node α) (c : Nat) :
    (n.mutableFor c).children = n.children := by
  unfold Node.mutableFor
  split
  · rfl
  · cases n
    rfl

/-- Writing one slot is splicing the new value between take and drop. -/
theorem set_eq_take_cons_drop {β : Type} : ∀ (l : List β) (j : Nat) (a : β), j < l.length →
    l.set j a = l.take j ++ a :: l.drop (j + 1) := by
  intro l
  induction l with
  | nil => intro j a h; simp at h
  | cons x l ih =>
    intro j a h
    cases j with
    | zero => simp
    | succ j =>
      simp only [List.set_cons_succ, List.take_succ_cons, List.drop_succ_cons, List.cons_append]
      rw [ih j a (by simpa using h)]

/-- Inserting at slot 0 always succeeds and conses. -/
theorem insertAt_zero {β : Type} (l : List β) (x : β) : insertAt l 0 x = some (x :: l) := by
  simp [insertAt]

/-- A successful pop exposes the last element. -/
theorem popLast_shape {β : Type} {l l2 : List β} {x : β} (h : popLast l = some (x, l2)) :
    l = l2 ++ [x] := by
  unfold popLast at h
  cases hg : l.getLast? with
  | none => rw [hg] at h; exact absurd h (by simp)
  | some y =>
    rw [hg] at h
    simp only [Option.some.injEq, Prod.mk.injEq] at h
    obtain ⟨l0, rfl⟩ := List.getLast?_eq_some_iff.mp hg
    rw [← h.2, ← h.1, List.dropLast_concat]

/-- A successful removeAt exposes the removed slot. -/
theorem removeAt_shape {β : Type} {l l2 : List β} {i : Nat} {x : β}
    (h : removeAt l i = some (x, l2)) :
    ∃ hi : i < l.length, l[i] = x ∧ l2 = l.take i ++ l.drop (i + 1) := by
  unfold removeAt at h
  split at h
  · next hi =>
    simp only [Option.some.injEq, Prod.mk.injEq] at h
    refine ⟨hi, ?_, ?_⟩
    · rw [← h.1]
      simp [List.get_eq_getElem]
    · rw [← h.2, List.eraseIdx_eq_take_drop_succ]
  · exact absurd h (by simp)

/-- A successful get? exposes the slot. -/
theorem get?_shape {β : Type} {l : List β} {i : Nat} {x : β} (h : l.get? i = some x) :
    ∃ hi : i < l.length, l[i] = x := by
  rw [List.get?_eq_getElem?] at h
  exact List.getElem?_eq_some.mp h

/-- Shape after a successful mutableChild. -/
theorem mutableChild_shape {n : Node α} {i : Nat} {n1 ch : Node α}
    (h : n.mutableChild i = some (n1, ch)) :
    ∃ (hi : i < n.children.length) (c : Nat), n.cow = some c ∧
      ch = (n.children[i]).mutableFor c ∧
      n1 = Node.mk n.items (n.children.set i ch) n.cow := by
  unfold Node.mutableChild at h
  cases hg : n.children.get? i with
  | none => rw [hg] at h; simp at h
  | some ch0 =>
    cases hc : n.cow with
    | none => rw [hg, hc] at h; simp at h
    | some c =>
      rw [hg, hc] at h
      simp only [Option.some.injEq, Prod.mk.injEq] at h
      obtain ⟨hi, hch0⟩ := get?_shape hg
      refine ⟨hi, c, rfl, ?_, ?_⟩
      · rw [hch0, ← h.2]
      · rw [← h.2, ← h.1]

/-- Writing adjacent slots j+1 then j splices both values. -/
theorem steal_chs_shape {β : Type} : ∀ (l : List β) (j : Nat) (a b : β), j + 1 < l.length →
    (l.set (j + 1) a).set j b = l.take j ++ b :: a :: l.drop (j + 2) := by
  intro l
  induction l with
  | nil => intro j a b h; simp at h
  | cons x t ih =>
    intro j a b h
    cases j with
    | zero =>
      cases t with
      | nil => simp at h
      | cons y t2 => simp
    | succ j =>
      simp only [List.set_cons_succ, List.take_succ_cons, List.drop_succ_cons,
        List.cons_append]
      rw [ih j a b (by simpa using h)]

/-- Set slot i, drop slot i+1, overwrite slot i: the net effect. -/
theorem merge_chs_shape {β : Type} : ∀ (l : List β) (i : Nat) (a b : β), i + 1 < l.length →
    ((l.set i a).eraseIdx (i + 1)).set i b = l.take i ++ b :: l.drop (i + 2) := by
  intro l
  induction l with
  | nil => intro i a b h; simp at h
  | cons x t ih =>
    intro i a b h
    cases i with
    | zero =>
      cases t with
      | nil => simp at h
      | cons y t2 => simp [List.eraseIdx]
    | succ i =>
      simp only [List.set_cons_succ, List.eraseIdx_cons_succ, List.take_succ_cons,
        List.drop_succ_cons, List.cons_append]
      rw [ih i a b (by simpa using h)]

/-- An internal well-formed node: one height below, aligned slices,
well-formed children. -/
theorem WFT_internal {h : Nat} {n : Node α} (hw : WFT h n) (hne : n.children ≠ []) :
    ∃ h2, h = h2 + 1 ∧ n.children.length = n.items.length + 1 ∧
      ∀ ch ∈ n.children, WFT h2 ch := by
  cases hw with
  | leaf => exact absurd rfl hne
  | @node hh its chs c hlen hch => exact ⟨hh, rfl, hlen, hch⟩

/-- Any inhabited WFT height is positive. -/
theorem WFT_pos {h : Nat} {n : Node α} (hw : WFT h n) : 1 ≤ h := by
  cases hw <;> omega

@[simp] theorem items_mk (its : List α) (chs : List (Node α)) (c : Option Nat) :
    (Node.mk its chs c).items = its := rfl

@[simp] theorem children_mk (its : List α) (chs : List (Node α)) (c : Option Nat) :
    (Node.mk its chs c).children = chs := rfl

@[simp] theorem cow_mk (its : List α) (chs : List (Node α)) (c : Option Nat) :
    (Node.mk its chs c).cow = c := rfl

theorem flattenN_def (n : Node α) : flattenN n = flattenL n.items n.children := rfl

/-- C1: the claim that every public operation on a degree-greater-1
tree is total fails on the code: starting from the empty degree-2 tree,
ReplaceOrInsert 1 succeeds but the following ReplaceOrInsert 2 hits an
index-out-of-range fault (the leaf case of node.insert falls through
into maybeSplitChild, which reads children[i] of the childless leaf),
so the run returns none. -/
theorem insert_faults_on_second_item :
    (BTree.ReplaceOrInsert 10 emptyDeg2 (some 1)).bind
      (fun r => BTree.ReplaceOrInsert 10 r.1 (some 2)) = none := by
  rfl

/-- C2: the claim that a leaf insert of a fresh element stops after the
insertAt fails on the code: on the leaf holding only 1, inserting 2
(maxItems 3) does place 2, but then control reaches maybeSplitChild
and faults reading children[1] of the childless node, so the model
returns none instead of the inserted leaf. -/
theorem leaf_insert_reads_children :
    Node.insert 5 (Node.mk [(1 : Int)] [] none) 2 3 = none := by
  rfl

/-- C3: the claim quantifies over every sequence of ReplaceOrInsert /
delete operations on an initially empty degree-2 tree, but already the
two-insert sequence 1, 2 faults inside the second insert, so no
resulting tree exists for it. -/
theorem insert_sequence_faults :
    ([(1 : Int), 2].foldlM
      (fun (t : BTree Int) x => (BTree.ReplaceOrInsert 10 t (some x)).map Prod.fst)
      emptyDeg2) = none := by
  rfl

/-- C4: the claim that ReplaceOrInsert of a fresh item returns nil and
grows the count by one fails on the code: on the degree-2 tree holding
only 1, ReplaceOrInsert 2 faults (none) instead of returning nil with
count 2. -/
theorem replaceOrInsert_fresh_item_faults :
    BTree.ReplaceOrInsert 10 ⟨2, 1, some (.mk [1] [] (some 0)), 0⟩ (some (2 : Int))
      = none := by
  rfl

/-- C8: the spec's clone-independence scenario cannot run on the code:
on a tree holding 1..100, after Clone, inserting 200 into the clone
faults inside node.insert (the same missing leaf return), so the
insert-into-clone half of the scenario never completes.  (The tree
value of the original handle is a pure value here and is trivially
unaffected.) -/
theorem clone_insert_faults :
    BTree.ReplaceOrInsert 300 (BTree.Clone treeHundred 1 2).2 (some 200) = none := by
  rfl

/-- C5 counterexample: on the sorted duplicate-free slice 1, 2 with
target 1, the spec's index (first n with target < items[n]) is 1, but
items.find returns index 0 (with found = true): when the target is
present, find yields the index of the equal element, one less than the
spec's first-greater index. -/
theorem find_index_mismatch :
    itemsFind [(1 : Int), 2] 1 = (0, true) ∧
    specFindIndex [(1 : Int), 2] 1 = 1 ∧
    List.Pairwise (· < ·) [(1 : Int), 2] := by
  refine ⟨rfl, rfl, by decide⟩

/-- C6 counterexample: deleting the absent item 5 from the degree-2
tree with root 2 over leaves 1 and 3 does return nil with the count
unchanged, but it does not leave the node structure unchanged: the
rebalance-before-descend policy merges both leaves into the root, so
the root goes from two children to none. -/
theorem delete_absent_restructures :
    BTree.GetItem 10 treeThree 5 = some none ∧
    BTree.Delete 10 treeThree 5 = some (treeThreeMerged, none) ∧
    (treeThreeMerged.root.map fun n => n.children.length) ≠
      (treeThree.root.map fun n => n.children.length) := by
  refine ⟨rfl, rfl, by decide⟩

/-- C10: copyOnWriteContext.freeNode on a node owned by a different
context returns ftNotOwned and leaves both the node (items, children
and tag) and the freelist exactly as they were. -/
theorem cowFreeNode_not_owned {α : Type} (c : Nat) (n : Node α) (f : FreeList α)
    (h : n.cow ≠ some c) : cowFreeNode c n f = (.ftNotOwned, n, f) := by
  simp [cowFreeNode, h]

/-- Witness for C10 at a concrete foreign node. -/
theorem cowFreeNode_not_owned_witness :
    (Node.mk [(1 : Int)] [] (some 5)).cow ≠ some 3 ∧
    cowFreeNode 3 (Node.mk [(1 : Int)] [] (some 5)) (NewFreeList 2)
      = (.ftNotOwned, Node.mk [(1 : Int)] [] (some 5), NewFreeList 2) :=
  ⟨by decide, cowFreeNode_not_owned 3 _ _ (by decide)⟩

/-- Helper for C9: folding releases never changes the capacity field
(the Go slice capacity stays at the creation size). -/
theorem freeNode_fold_capacity {α : Type} (ops : List (Node α)) (f : FreeList α) :
    (ops.foldl (fun g m => (FreeList.freeNode g m).2) f).capacity = f.capacity := by
  induction ops generalizing f with
  | nil => rfl
  | cons m ops ih =>
    have hstep : (FreeList.freeNode f m).2.capacity = f.capacity := by
      simp only [FreeList.freeNode]
      split <;> rfl
    simpa [List.foldl_cons, hstep] using ih (FreeList.freeNode f m).2

/-- Helper for C9: folding releases keeps the pool length within the
original capacity whenever it started within it. -/
theorem freeNode_fold_length {α : Type} (ops : List (Node α)) (f : FreeList α)
    (h : f.freelist.length ≤ f.capacity) :
    (ops.foldl (fun g m => (FreeList.freeNode g m).2) f).freelist.length ≤ f.capacity := by
  induction ops generalizing f with
  | nil => exact h
  | cons m ops ih =>
    have hcap : (FreeList.freeNode f m).2.capacity = f.capacity := by
      simp only [FreeList.freeNode]
      split <;> rfl
    have hlen : (FreeList.freeNode f m).2.freelist.length ≤ f.capacity := by
      simp only [FreeList.freeNode]
      split
      · simp only [List.length_append, List.length_cons, List.length_nil]
        omega
      · exact h
    have := ih (FreeList.freeNode f m).2 (by rw [hcap]; exact hlen)
    rw [hcap] at this
    simpa [List.foldl_cons] using this

/-- C9: starting from NewFreeList c, any sequence of freeNode releases
leaves at most c nodes pooled, and a further release is accepted (and
reports true) exactly when the current pool size is below c. -/
theorem freeNode_pool_bound {α : Type} (c : Nat) (ops : List (Node α)) (n : Node α) :
    ((ops.foldl (fun g m => (FreeList.freeNode g m).2) (NewFreeList c)).freelist.length
        ≤ c) ∧
      (((ops.foldl (fun g m => (FreeList.freeNode g m).2) (NewFreeList c)).freeNode n).1
          = true ↔
        (ops.foldl (fun g m => (FreeList.freeNode g m).2) (NewFreeList c)).freelist.length
          < c) := by
  have hlen := freeNode_fold_length ops (NewFreeList c : FreeList α) (by simp [NewFreeList])
  have hcap := freeNode_fold_capacity ops (NewFreeList c : FreeList α)
  simp only [NewFreeList] at hlen hcap
  refine ⟨hlen, ?_⟩
  have key : ∀ F : FreeList α, F.capacity = c →
      ((F.freeNode n).1 = true ↔ F.freelist.length < c) := by
    intro F hFc
    rw [← hFc]
    simp only [FreeList.freeNode]
    split
    · next hlt => simp [hlt]
    · next hge => simp [hge]
  exact key _ hcap



theorem flattenN_mk (its : List α) (chs : List (Node α)) (c : Option Nat) :
    flattenN (Node.mk its chs c) = flattenL its chs := rfl

theorem stealLeft_spec {h : Nat} {its : List α} {chs : List (Node α)} {cc : Option Nat}
    {i : Nat} {n4 : Node α}
    (hw : WFT h (Node.mk its chs cc))
    (hi1 : 1 ≤ i)
    (hsl : Node.stealLeft (Node.mk its chs cc) i = some n4) :
    WFT h n4 ∧ flattenN n4 = flattenN (Node.mk its chs cc) := by
  unfold Node.stealLeft at hsl
  split at hsl
  · exact absurd hsl (by simp)
  next n1 child heq1 =>
    obtain ⟨hiLt, c, hcow, hchild, hn1⟩ := mutableChild_shape heq1
    simp only [children_mk, items_mk, cow_mk] at hiLt hchild hn1
    split at hsl
    · exact absurd hsl (by simp)
    next n2 stealFrom heq2 =>
      obtain ⟨hi2Lt, c2, hcow2, hsf, hn2⟩ := mutableChild_shape heq2
      subst hn1
      simp only [children_mk, items_mk, cow_mk, List.length_set] at hi2Lt hsf hn2 hcow2 hcow
      rw [hcow] at hcow2
      obtain rfl : c = c2 := Option.some.inj hcow2
      have hne : i ≠ i - 1 := by omega
      rw [List.getElem_set_ne hne] at hsf
      subst hn2
      split at hsl
      · exact absurd hsl (by simp)
      next stolen sfIts heqPop =>
        have hsfIts := popLast_shape heqPop
        split at hsl
        · exact absurd hsl (by simp)
        next sep heqSep =>
          simp only [items_mk] at heqSep
          obtain ⟨hsepLt, hsepEq⟩ := get?_shape heqSep
          split at hsl
          · exact absurd hsl (by simp)
          next cIts heqIns =>
            rw [insertAt_zero] at heqIns
            obtain rfl : sep :: child.items = cIts := Option.some.inj heqIns
            simp only [items_mk, children_mk, cow_mk] at hsl
            split at hsl
            next hbr =>
              split at hsl
              · exact absurd hsl (by simp)
              next sfLastCh sfChs heqPopC =>
                have hsfChs := popLast_shape heqPopC
                split at hsl
                · exact absurd hsl (by simp)
                next cChs heqInsC =>
                  rw [insertAt_zero] at heqInsC
                  obtain rfl : sfLastCh :: child.children = cChs := Option.some.inj heqInsC
                  obtain rfl := Option.some.inj hsl
                  obtain ⟨hs, rfl, hlen, hch⟩ := WFT_internal hw (by
                    simp only [children_mk]
                    intro hemp
                    rw [hemp] at hiLt
                    simp at hiLt)
                  simp only [children_mk, items_mk] at hlen
                  have wfSib : WFT hs chs[i - 1] := hch _ (List.getElem_mem hi2Lt)
                  have wfChi : WFT hs chs[i] := hch _ (List.getElem_mem hiLt)
                  have wfSf : WFT hs stealFrom := hsf ▸ WFT_mutableFor c wfSib
                  have wfCh : WFT hs child := hchild ▸ WFT_mutableFor c wfChi
                  obtain ⟨hs2, rfl, hlenS, hchS⟩ := WFT_internal wfSf (by
                    intro hemp
                    rw [hemp] at hbr
                    simp at hbr)
                  have hs2pos : 1 ≤ hs2 := by
                    have hmem : sfLastCh ∈ stealFrom.children := by
                      rw [hsfChs]
                      simp
                    exact WFT_pos (hchS _ hmem)
                  have hchNe : child.children ≠ [] := by
                    intro hemp
                    have h1 := (WFT_leaf_iff wfCh).mp hemp
                    omega
                  obtain ⟨hs2b, hseq, hlenC, hchC⟩ := WFT_internal wfCh hchNe
                  constructor
                  · refine WFT.node ?_ ?_
                    · simp [List.length_set, hlen]
                    · intro ch hm
                      rw [List.set_comm stealFrom _ (chs.set i child) (by omega),
                        List.set_set, List.set_set] at hm
                      rcases List.mem_or_eq_of_mem_set hm with hm2 | rfl
                      · rcases List.mem_or_eq_of_mem_set hm2 with hm3 | rfl
                        · exact hch ch (by simpa using hm3)
                        · refine WFT.node (by simp [hlenC]) ?_
                          intro u hu
                          rcases List.mem_cons.mp hu with rfl | hu2
                          · exact hchS _ (by rw [hsfChs]; simp)
                          · have hx := hchC _ hu2
                            rwa [show hs2b = hs2 from by omega] at hx
                      · refine WFT.node ?_ ?_
                        · have h0 := hlenS
                          rw [hsfChs, hsfIts] at h0
                          simp at h0
                          simpa using h0
                        · intro u hu
                          exact hchS _ (by rw [hsfChs]; exact List.mem_append_left _ hu)
                  · have hE : (((chs.set i child).set (i - 1) stealFrom).set i
                          (Node.mk (sep :: child.items) (sfLastCh :: child.children) child.cow)).set
                          (i - 1) (Node.mk sfIts sfChs stealFrom.cow)
                        = (chs.set i (Node.mk (sep :: child.items)
                            (sfLastCh :: child.children) child.cow)).set
                          (i - 1) (Node.mk sfIts sfChs stealFrom.cow) := by
                      rw [List.set_comm stealFrom _ (chs.set i child) (by omega),
                        List.set_set, List.set_set]
                    simp only [flattenN_def, items_mk, children_mk]
                    rw [hE]
                    have hshape := steal_chs_shape chs (i - 1)
                      (Node.mk (sep :: child.items) (sfLastCh :: child.children) child.cow)
                      (Node.mk sfIts sfChs stealFrom.cow)
                      (by omega)
                    rw [show i - 1 + 1 = i from by omega, show i - 1 + 2 = i + 1 from by omega] at hshape
                    rw [hshape]
                    have hits3 := set_eq_take_cons_drop its (i - 1) stolen hsepLt
                    rw [show i - 1 + 1 = i from by omega] at hits3
                    rw [hits3]
                    rw [flattenL_append_front _ _ _ _ (by
                      simp only [List.length_take]
                      omega)]
                    rw [flattenL_cons_cons, flattenL_expand]
                    conv_rhs => rw [← List.take_append_drop (i - 1) its,
                      ← List.take_append_drop (i - 1) chs]
                    rw [flattenL_append_front _ _ _ _ (by
                      simp only [List.length_take]
                      omega)]
                    have hdropIts : its.drop (i - 1) = sep :: its.drop i := by
                      rw [List.drop_eq_getElem_cons hsepLt, hsepEq,
                        show i - 1 + 1 = i from by omega]
                    have hdropChs : chs.drop (i - 1) = chs[i - 1] :: chs[i] :: chs.drop (i + 1) := by
                      rw [List.drop_eq_getElem_cons hi2Lt, show i - 1 + 1 = i from by omega,
                        List.drop_eq_getElem_cons hiLt]
                    rw [hdropIts, hdropChs, flattenL_cons_cons, flattenL_expand]
                    have hsibFlat : flattenN chs[i - 1]
                        = flattenL sfIts sfChs ++ stolen :: flattenN sfLastCh := by
                      have h1 : flattenN chs[i - 1] = flattenN stealFrom := by
                        rw [hsf, flattenN_mutableFor]
                      rw [h1, flattenN_def, hsfIts, hsfChs]
                      rw [flattenL_append_block _ _ _ _ (by
                        have h0 := hlenS
                        rw [hsfChs, hsfIts] at h0
                        simp at h0
                        omega)]
                      rw [flattenT_cons, flattenL_nil_cons]
                    have hchiFlat : flattenN chs[i] = flattenL child.items child.children := by
                      have h1 : flattenN child = flattenN chs[i] := by
                        rw [hchild, flattenN_mutableFor]
                      rw [← h1, flattenN_def]
                    rw [hsibFlat, hchiFlat]
                    simp only [flattenN_mk]
                    rw [flattenL_cons_cons]
                    simp [List.append_assoc]
            next hbr =>
              obtain rfl := Option.some.inj hsl
              have hsfEmpty : stealFrom.children = [] := by
                cases hx : stealFrom.children with
                | nil => rfl
                | cons a l => rw [hx] at hbr; simp at hbr
              obtain ⟨hs, rfl, hlen, hch⟩ := WFT_internal hw (by
                simp only [children_mk]
                intro hemp
                rw [hemp] at hiLt
                simp at hiLt)
              simp only [children_mk, items_mk] at hlen
              have wfSib : WFT hs chs[i - 1] := hch _ (List.getElem_mem hi2Lt)
              have wfChi : WFT hs chs[i] := hch _ (List.getElem_mem hiLt)
              have wfSf : WFT hs stealFrom := hsf ▸ WFT_mutableFor c wfSib
              have wfCh : WFT hs child := hchild ▸ WFT_mutableFor c wfChi
              have hs1 : hs = 1 := (WFT_leaf_iff wfSf).mp hsfEmpty
              have hchEmpty : child.children = [] := (WFT_leaf_iff wfCh).mpr hs1
              constructor
              · refine WFT.node ?_ ?_
                · simp [List.length_set, hlen]
                · intro ch hm
                  rw [List.set_comm stealFrom _ (chs.set i child) (by omega),
                    List.set_set, List.set_set] at hm
                  rcases List.mem_or_eq_of_mem_set hm with hm2 | rfl
                  · rcases List.mem_or_eq_of_mem_set hm2 with hm3 | rfl
                    · exact hch ch (by simpa using hm3)
                    · rw [hchEmpty, hs1]
                      exact WFT.leaf
                  · rw [hsfEmpty, hs1]
                    exact WFT.leaf
              · have hE : (((chs.set i child).set (i - 1) stealFrom).set i
                      (Node.mk (sep :: child.items) child.children child.cow)).set
                      (i - 1) (Node.mk sfIts stealFrom.children stealFrom.cow)
                    = (chs.set i (Node.mk (sep :: child.items)
                        child.children child.cow)).set
                      (i - 1) (Node.mk sfIts stealFrom.children stealFrom.cow) := by
                  rw [List.set_comm stealFrom _ (chs.set i child) (by omega),
                    List.set_set, List.set_set]
                simp only [flattenN_def, items_mk, children_mk]
                rw [hE]
                have hshape := steal_chs_shape chs (i - 1)
                  (Node.mk (sep :: child.items) child.children child.cow)
                  (Node.mk sfIts stealFrom.children stealFrom.cow)
                  (by omega)
                rw [show i - 1 + 1 = i from by omega, show i - 1 + 2 = i + 1 from by omega] at hshape
                rw [hshape]
                have hits3 := set_eq_take_cons_drop its (i - 1) stolen hsepLt
                rw [show i - 1 + 1 = i from by omega] at hits3
                rw [hits3]
                rw [flattenL_append_front _ _ _ _ (by
                  simp only [List.length_take]
                  omega)]
                rw [flattenL_cons_cons, flattenL_expand]
                conv_rhs => rw [← List.take_append_drop (i - 1) its,
                  ← List.take_append_drop (i - 1) chs]
                rw [flattenL_append_front _ _ _ _ (by
                  simp only [List.length_take]
                  omega)]
                have hdropIts : its.drop (i - 1) = sep :: its.drop i := by
                  rw [List.drop_eq_getElem_cons hsepLt, hsepEq,
                    show i - 1 + 1 = i from by omega]
                have hdropChs : chs.drop (i - 1) = chs[i - 1] :: chs[i] :: chs.drop (i + 1) := by
                  rw [List.drop_eq_getElem_cons hi2Lt, show i - 1 + 1 = i from by omega,
                    List.drop_eq_getElem_cons hiLt]
                rw [hdropIts, hdropChs, flattenL_cons_cons, flattenL_expand]
                have hsibFlat : flattenN chs[i - 1] = sfIts ++ [stolen] := by
                  have h1 : flattenN chs[i - 1] = flattenN stealFrom := by
                    rw [hsf, flattenN_mutableFor]
                  rw [h1, flattenN_def, hsfEmpty, flattenL_nil_right, hsfIts]
                have hchiFlat : flattenN chs[i] = child.items := by
                  have h1 : flattenN child = flattenN chs[i] := by
                    rw [hchild, flattenN_mutableFor]
                  rw [← h1, flattenN_def, hchEmpty, flattenL_nil_right]
                rw [hsibFlat, hchiFlat]
                simp only [flattenN_mk, hsfEmpty, hchEmpty, flattenL_nil_right]
                simp [List.append_assoc]

theorem removeAt_zero_shape {β : Type} {l t : List β} {x : β}
    (h : removeAt l 0 = some (x, t)) : l = x :: t := by
  obtain ⟨h0, hx, ht⟩ := removeAt_shape h
  rw [ht]
  simp only [List.take_zero, List.nil_append]
  rw [← hx, ← List.drop_eq_getElem_cons h0]
  rfl

theorem stealRight_spec {h : Nat} {its : List α} {chs : List (Node α)} {cc : Option Nat}
    {i : Nat} {n4 : Node α}
    (hw : WFT h (Node.mk its chs cc))
    (hsl : Node.stealRight (Node.mk its chs cc) i = some n4) :
    WFT h n4 ∧ flattenN n4 = flattenN (Node.mk its chs cc) := by
  unfold Node.stealRight at hsl
  split at hsl
  · exact absurd hsl (by simp)
  next n1 child heq1 =>
    obtain ⟨hiLt, c, hcow, hchild, hn1⟩ := mutableChild_shape heq1
    simp only [children_mk, items_mk, cow_mk] at hiLt hchild hn1 hcow
    subst hn1
    split at hsl
    · exact absurd hsl (by simp)
    next n2 stealFrom heq2 =>
      obtain ⟨hi2Lt, c2, hcow2, hsf, hn2⟩ := mutableChild_shape heq2
      simp only [children_mk, items_mk, cow_mk, List.length_set] at hi2Lt hsf hn2 hcow2
      rw [hcow] at hcow2
      obtain rfl : c = c2 := Option.some.inj hcow2
      have hne : i ≠ i + 1 := by omega
      rw [List.getElem_set_ne hne] at hsf
      subst hn2
      split at hsl
      · exact absurd hsl (by simp)
      next stolen sfIts heqPop =>
        have hsfIts := removeAt_zero_shape heqPop
        split at hsl
        · exact absurd hsl (by simp)
        next sep heqSep =>
          simp only [items_mk] at heqSep
          obtain ⟨hsepLt, hsepEq⟩ := get?_shape heqSep
          simp only [items_mk, children_mk, cow_mk] at hsl
          split at hsl
          next hbr =>
            split at hsl
            · exact absurd hsl (by simp)
            next sfFirstCh sfChs heqPopC =>
              have hsfChs := removeAt_zero_shape heqPopC
              obtain rfl := Option.some.inj hsl
              obtain ⟨hs, rfl, hlen, hch⟩ := WFT_internal hw (by
                simp only [children_mk]
                intro hemp
                rw [hemp] at hiLt
                simp at hiLt)
              simp only [children_mk, items_mk] at hlen
              have wfSib : WFT hs chs[i + 1] := hch _ (List.getElem_mem hi2Lt)
              have wfChi : WFT hs chs[i] := hch _ (List.getElem_mem hiLt)
              have wfSf : WFT hs stealFrom := hsf ▸ WFT_mutableFor c wfSib
              have wfCh : WFT hs child := hchild ▸ WFT_mutableFor c wfChi
              obtain ⟨hs2, rfl, hlenS, hchS⟩ := WFT_internal wfSf (by
                intro hemp
                rw [hemp] at hbr
                simp at hbr)
              have hs2pos : 1 ≤ hs2 := by
                have hmem : sfFirstCh ∈ stealFrom.children := by
                  rw [hsfChs]
                  simp
                exact WFT_pos (hchS _ hmem)
              have hchNe : child.children ≠ [] := by
                intro hemp
                have h1 := (WFT_leaf_iff wfCh).mp hemp
                omega
              obtain ⟨hs2b, hseq, hlenC, hchC⟩ := WFT_internal wfCh hchNe
              constructor
              · refine WFT.node ?_ ?_
                · simp [List.length_set, hlen]
                · intro ch hm
                  rw [List.set_comm stealFrom _ (chs.set i child) (by omega),
                    List.set_set, List.set_set] at hm
                  rcases List.mem_or_eq_of_mem_set hm with hm2 | rfl
                  · rcases List.mem_or_eq_of_mem_set hm2 with hm3 | rfl
                    · exact hch ch (by simpa using hm3)
                    · refine WFT.node (by simp [hlenC]) ?_
                      intro u hu
                      rcases List.mem_append.mp hu with hu2 | hu2
                      · have hx := hchC _ hu2
                        rwa [show hs2b = hs2 from by omega] at hx
                      · obtain rfl : u = sfFirstCh := by simpa using hu2
                        exact hchS _ (by rw [hsfChs]; simp)
                  · refine WFT.node ?_ ?_
                    · have h0 := hlenS
                      rw [hsfChs, hsfIts] at h0
                      simp at h0
                      simpa using h0
                    · intro u hu
                      exact hchS _ (by rw [hsfChs]; simp [hu])
              · have hE : (((chs.set i child).set (i + 1) stealFrom).set i
                      (Node.mk (child.items ++ [sep]) (child.children ++ [sfFirstCh]) child.cow)).set
                      (i + 1) (Node.mk sfIts sfChs stealFrom.cow)
                    = (chs.set (i + 1) (Node.mk sfIts sfChs stealFrom.cow)).set i
                      (Node.mk (child.items ++ [sep]) (child.children ++ [sfFirstCh]) child.cow) := by
                  rw [List.set_comm stealFrom _ (chs.set i child) (by omega),
                    List.set_set, List.set_set,
                    List.set_comm _ _ chs (by omega)]
                simp only [flattenN_def, items_mk, children_mk]
                rw [hE]
                have hshape := steal_chs_shape chs i
                  (Node.mk sfIts sfChs stealFrom.cow)
                  (Node.mk (child.items ++ [sep]) (child.children ++ [sfFirstCh]) child.cow)
                  (by omega)
                rw [hshape]
                have hits3 := set_eq_take_cons_drop its i stolen hsepLt
                rw [hits3]
                rw [flattenL_append_front _ _ _ _ (by
                  simp only [List.length_take]
                  omega)]
                rw [flattenL_cons_cons, flattenL_expand]
                conv_rhs => rw [← List.take_append_drop i its,
                  ← List.take_append_drop i chs]
                rw [flattenL_append_front _ _ _ _ (by
                  simp only [List.length_take]
                  omega)]
                have hdropIts : its.drop i = sep :: its.drop (i + 1) := by
                  rw [List.drop_eq_getElem_cons hsepLt, hsepEq]
                have hdropChs : chs.drop i = chs[i] :: chs[i + 1] :: chs.drop (i + 2) := by
                  rw [List.drop_eq_getElem_cons hiLt, List.drop_eq_getElem_cons hi2Lt]
                rw [hdropIts, hdropChs, flattenL_cons_cons, flattenL_expand]
                have hsibFlat : flattenN chs[i + 1]
                    = flattenN sfFirstCh ++ stolen :: flattenL sfIts sfChs := by
                  have h1 : flattenN chs[i + 1] = flattenN stealFrom := by
                    rw [hsf, flattenN_mutableFor]
                  rw [h1, flattenN_def, hsfIts, hsfChs, flattenL_cons_cons]
                have hchiFlat : flattenN chs[i] = flattenL child.items child.children := by
                  have h1 : flattenN child = flattenN chs[i] := by
                    rw [hchild, flattenN_mutableFor]
                  rw [← h1, flattenN_def]
                rw [hsibFlat, hchiFlat]
                simp only [flattenN_mk]
                rw [flattenL_append_block _ _ _ _ (by omega), flattenT_cons, flattenL_nil_cons]
                simp [List.append_assoc]
          next hbr =>
            obtain rfl := Option.some.inj hsl
            have hsfEmpty : stealFrom.children = [] := by
              cases hx : stealFrom.children with
              | nil => rfl
              | cons a l => rw [hx] at hbr; simp at hbr
            obtain ⟨hs, rfl, hlen, hch⟩ := WFT_internal hw (by
              simp only [children_mk]
              intro hemp
              rw [hemp] at hiLt
              simp at hiLt)
            simp only [children_mk, items_mk] at hlen
            have wfSib : WFT hs chs[i + 1] := hch _ (List.getElem_mem hi2Lt)
            have wfChi : WFT hs chs[i] := hch _ (List.getElem_mem hiLt)
            have wfSf : WFT hs stealFrom := hsf ▸ WFT_mutableFor c wfSib
            have wfCh : WFT hs child := hchild ▸ WFT_mutableFor c wfChi
            have hs1 : hs = 1 := (WFT_leaf_iff wfSf).mp hsfEmpty
            have hchEmpty : child.children = [] := (WFT_leaf_iff wfCh).mpr hs1
            constructor
            · refine WFT.node ?_ ?_
              · simp [List.length_set, hlen]
              · intro ch hm
                rw [List.set_comm stealFrom _ (chs.set i child) (by omega),
                  List.set_set, List.set_set] at hm
                rcases List.mem_or_eq_of_mem_set hm with hm2 | rfl
                · rcases List.mem_or_eq_of_mem_set hm2 with hm3 | rfl
                  · exact hch ch (by simpa using hm3)
                  · rw [hchEmpty, hs1]
                    exact WFT.leaf
                · rw [hsfEmpty, hs1]
                  exact WFT.leaf
            · have hE : (((chs.set i child).set (i + 1) stealFrom).set i
                    (Node.mk (child.items ++ [sep]) child.children child.cow)).set
                    (i + 1) (Node.mk sfIts stealFrom.children stealFrom.cow)
                  = (chs.set (i + 1) (Node.mk sfIts stealFrom.children stealFrom.cow)).set i
                    (Node.mk (child.items ++ [sep]) child.children child.cow) := by
                rw [List.set_comm stealFrom _ (chs.set i child) (by omega),
                  List.set_set, List.set_set,
                  List.set_comm _ _ chs (by omega)]
              simp only [flattenN_def, items_mk, children_mk]
              rw [hE]
              have hshape := steal_chs_shape chs i
                (Node.mk sfIts stealFrom.children stealFrom.cow)
                (Node.mk (child.items ++ [sep]) child.children child.cow)
                (by omega)
              rw [hshape]
              have hits3 := set_eq_take_cons_drop its i stolen hsepLt
              rw [hits3]
              rw [flattenL_append_front _ _ _ _ (by
                simp only [List.length_take]
                omega)]
              rw [flattenL_cons_cons, flattenL_expand]
              conv_rhs => rw [← List.take_append_drop i its,
                ← List.take_append_drop i chs]
              rw [flattenL_append_front _ _ _ _ (by
                simp only [List.length_take]
                omega)]
              have hdropIts : its.drop i = sep :: its.drop (i + 1) := by
                rw [List.drop_eq_getElem_cons hsepLt, hsepEq]
              have hdropChs : chs.drop i = chs[i] :: chs[i + 1] :: chs.drop (i + 2) := by
                rw [List.drop_eq_getElem_cons hiLt, List.drop_eq_getElem_cons hi2Lt]
              rw [hdropIts, hdropChs, flattenL_cons_cons, flattenL_expand]
              have hsibFlat : flattenN chs[i + 1] = stolen :: sfIts := by
                have h1 : flattenN chs[i + 1] = flattenN stealFrom := by
                  rw [hsf, flattenN_mutableFor]
                rw [h1, flattenN_def, hsfEmpty, flattenL_nil_right, hsfIts]
              have hchiFlat : flattenN chs[i] = child.items := by
                have h1 : flattenN child = flattenN chs[i] := by
                  rw [hchild, flattenN_mutableFor]
                rw [← h1, flattenN_def, hchEmpty, flattenL_nil_right]
              rw [hsibFlat, hchiFlat]
              simp only [flattenN_mk, hsfEmpty, hchEmpty, flattenL_nil_right]
              simp [List.append_assoc]

theorem eraseIdx_take_drop {β : Type} : ∀ (l : List β) (n : Nat),
    l.eraseIdx n = l.take n ++ l.drop (n + 1) := by
  intro l
  induction l with
  | nil => intro n; simp [List.eraseIdx]
  | cons x t ih =>
    intro n
    cases n with
    | zero => simp [List.eraseIdx]
    | succ m => simp [List.eraseIdx, ih]

theorem mergeRight_spec {h : Nat} {its : List α} {chs : List (Node α)} {cc : Option Nat}
    {i : Nat} {n4 : Node α}
    (hw : WFT h (Node.mk its chs cc))
    (hm : Node.mergeRight (Node.mk its chs cc) i = some n4) :
    WFT h n4 ∧ flattenN n4 = flattenN (Node.mk its chs cc) := by
  unfold Node.mergeRight at hm
  split at hm
  · exact absurd hm (by simp)
  next n1 child heq1 =>
    obtain ⟨hiLt, c, hcow, hchild, hn1⟩ := mutableChild_shape heq1
    simp only [children_mk, items_mk, cow_mk] at hiLt hchild hn1 hcow
    subst hn1
    split at hm
    · exact absurd hm (by simp)
    next mergeItem its2 heq2 =>
      simp only [items_mk] at heq2
      obtain ⟨hiIts, hmi, hits2⟩ := removeAt_shape heq2
      split at hm
      · exact absurd hm (by simp)
      next mergeChild chs2 heq3 =>
        simp only [children_mk] at heq3
        obtain ⟨hi2Lt0, hmc0, hchs2⟩ := removeAt_shape heq3
        have hi2Lt : i + 1 < chs.length := by simpa using hi2Lt0
        have hne : i ≠ i + 1 := by omega
        rw [List.getElem_set_ne hne] at hmc0
        simp only [items_mk, children_mk, cow_mk] at hm
        obtain rfl := Option.some.inj hm
        have hshape : chs2.set i
              (Node.mk (child.items ++ mergeItem :: mergeChild.items)
                (child.children ++ mergeChild.children) child.cow)
            = chs.take i ++
              Node.mk (child.items ++ mergeItem :: mergeChild.items)
                (child.children ++ mergeChild.children) child.cow :: chs.drop (i + 2) := by
          rw [hchs2, ← eraseIdx_take_drop]
          exact merge_chs_shape chs i child _ hi2Lt
        obtain ⟨hs, rfl, hlen, hch⟩ := WFT_internal hw (by
          simp only [children_mk]
          intro hemp
          rw [hemp] at hiLt
          simp at hiLt)
        simp only [children_mk, items_mk] at hlen
        have wfChi : WFT hs chs[i] := hch _ (List.getElem_mem hiLt)
        have wfCh : WFT hs child := hchild ▸ WFT_mutableFor c wfChi
        have wfMc : WFT hs mergeChild := hmc0 ▸ hch _ (List.getElem_mem hi2Lt)
        have hchiFlat : flattenN chs[i] = flattenL child.items child.children := by
          have h1 : flattenN child = flattenN chs[i] := by
            rw [hchild, flattenN_mutableFor]
          rw [← h1, flattenN_def]
        have hmcFlat : flattenN chs[i + 1] = flattenL mergeChild.items mergeChild.children := by
          rw [hmc0, flattenN_def]
        by_cases hleaf : child.children = []
        · have hs1 : hs = 1 := (WFT_leaf_iff wfCh).mp hleaf
          have hmcEmp : mergeChild.children = [] := (WFT_leaf_iff wfMc).mpr hs1
          constructor
          · refine WFT.node ?_ ?_
            · rw [hshape, hits2]
              simp only [List.length_append, List.length_take, List.length_cons,
                List.length_drop]
              omega
            · intro ch hm2
              rw [hshape] at hm2
              rcases List.mem_append.mp hm2 with h1 | h1
              · exact hch _ (List.mem_of_mem_take h1)
              · rcases List.mem_cons.mp h1 with rfl | h2
                · rw [hleaf, hmcEmp]
                  simp only [List.append_nil]
                  rw [hs1]
                  exact WFT.leaf
                · exact hch _ (List.mem_of_mem_drop h2)
          · simp only [flattenN_def, items_mk, children_mk]
            rw [hshape, hits2]
            rw [flattenL_append_front _ _ _ _ (by
              simp only [List.length_take]
              omega)]
            rw [flattenL_expand]
            conv_rhs => rw [← List.take_append_drop i its,
              ← List.take_append_drop i chs]
            rw [flattenL_append_front _ _ _ _ (by
              simp only [List.length_take]
              omega)]
            have hdropIts : its.drop i = mergeItem :: its.drop (i + 1) := by
              rw [List.drop_eq_getElem_cons hiIts, hmi]
            have hdropChs : chs.drop i = chs[i] :: chs[i + 1] :: chs.drop (i + 2) := by
              rw [List.drop_eq_getElem_cons hiLt, List.drop_eq_getElem_cons hi2Lt]
            rw [hdropIts, hdropChs, flattenL_cons_cons, flattenL_expand]
            rw [hchiFlat, hmcFlat]
            simp only [flattenN_mk, hleaf, hmcEmp, List.append_nil, flattenL_nil_right]
            simp [List.append_assoc]
        · obtain ⟨hs2, hseq, hlenC, hchC⟩ := WFT_internal wfCh hleaf
          have hmcNe : mergeChild.children ≠ [] := by
            intro hemp
            exact hleaf ((WFT_leaf_iff wfCh).mpr ((WFT_leaf_iff wfMc).mp hemp))
          obtain ⟨hs2b, hseqb, hlenM, hchM⟩ := WFT_internal wfMc hmcNe
          constructor
          · refine WFT.node ?_ ?_
            · rw [hshape, hits2]
              simp only [List.length_append, List.length_take, List.length_cons,
                List.length_drop]
              omega
            · intro ch hm2
              rw [hshape] at hm2
              rcases List.mem_append.mp hm2 with h1 | h1
              · exact hch _ (List.mem_of_mem_take h1)
              · rcases List.mem_cons.mp h1 with rfl | h2
                · rw [hseq]
                  refine WFT.node ?_ ?_
                  · simp only [children_mk, items_mk, List.length_append, List.length_cons]
                    omega
                  · intro u hu
                    rcases List.mem_append.mp hu with hu1 | hu1
                    · exact hchC _ hu1
                    · have hx := hchM _ hu1
                      rwa [show hs2b = hs2 from by omega] at hx
                · exact hch _ (List.mem_of_mem_drop h2)
          · simp only [flattenN_def, items_mk, children_mk]
            rw [hshape, hits2]
            rw [flattenL_append_front _ _ _ _ (by
              simp only [List.length_take]
              omega)]
            rw [flattenL_expand]
            conv_rhs => rw [← List.take_append_drop i its,
              ← List.take_append_drop i chs]
            rw [flattenL_append_front _ _ _ _ (by
              simp only [List.length_take]
              omega)]
            have hdropIts : its.drop i = mergeItem :: its.drop (i + 1) := by
              rw [List.drop_eq_getElem_cons hiIts, hmi]
            have hdropChs : chs.drop i = chs[i] :: chs[i + 1] :: chs.drop (i + 2) := by
              rw [List.drop_eq_getElem_cons hiLt, List.drop_eq_getElem_cons hi2Lt]
            rw [hdropIts, hdropChs, flattenL_cons_cons, flattenL_expand]
            rw [hchiFlat, hmcFlat]
            simp only [flattenN_mk]
            rw [flattenL_append_block _ _ _ _ hlenC, flattenT_cons]
            simp [List.append_assoc]

theorem growChildRebalance_spec {h : Nat} {its : List α} {chs : List (Node α)}
    {cc : Option Nat} {i minItems : Nat} {n4 : Node α}
    (hw : WFT h (Node.mk its chs cc))
    (hg : Node.growChildRebalance (Node.mk its chs cc) i minItems = some n4) :
    WFT h n4 ∧ flattenN n4 = flattenN (Node.mk its chs cc) := by
  unfold Node.growChildRebalance at hg
  simp only [items_mk, children_mk] at hg
  split at hg
  · exact absurd hg (by simp)
  next hz =>
    refine stealLeft_spec hw ?_ hg
    by_contra hi0
    have hz0 : i = 0 := by omega
    rw [hz0, if_pos rfl] at hz
    simp at hz
  · split at hg
    · exact absurd hg (by simp)
    · exact stealRight_spec hw hg
    · exact mergeRight_spec hw hg

theorem IC_items {m : Nat} {n : Node α} (h : IC m n) : m ≤ n.items.length := by
  cases h with
  | mk h1 h2 => exact h1

theorem IC_children {m : Nat} {n : Node α} (h : IC m n) : ∀ c ∈ n.children, IC m c := by
  cases h with
  | mk h1 h2 => exact h2

theorem IC_mutableFor {m : Nat} {n : Node α} (c : Nat) (h : IC m n) :
    IC m (n.mutableFor c) := by
  unfold Node.mutableFor
  split
  · exact h
  · cases h with
    | mk h1 h2 => exact IC.mk h1 h2

theorem cow_mutableFor (n : Node α) (c : Nat) : (n.mutableFor c).cow = some c := by
  unfold Node.mutableFor
  split
  next h => exact h
  · rfl

/-- Cut a flatten at item position j: the prefix interleave, child j,
item j, then the remaining interleave. -/
theorem flattenL_decomp_at {its : List α} {chs : List (Node α)} {j : Nat}
    (hj : j < its.length) (hlen : chs.length = its.length + 1) :
    flattenL its chs =
      flattenP (its.take j) (chs.take j) ++
        (flattenN chs[j] ++
          its[j] :: flattenL (its.drop (j + 1)) (chs.drop (j + 1))) := by
  conv_lhs => rw [← List.take_append_drop j its, ← List.take_append_drop j chs]
  rw [flattenL_append_front _ _ _ _ (by
    simp only [List.length_take]
    omega)]
  have hdi : its.drop j = its[j] :: its.drop (j + 1) := List.drop_eq_getElem_cons hj
  have hdc : chs.drop j = chs[j] :: chs.drop (j + 1) :=
    List.drop_eq_getElem_cons (by omega)
  rw [hdi, hdc, flattenL_cons_cons]

/-- In a sorted flatten, everything inside child j lies below item j. -/
theorem child_lt_item {its : List α} {chs : List (Node α)} {j : Nat}
    (hs : (flattenL its chs).Pairwise (· < ·))
    (hj : j < its.length) (hlen : chs.length = its.length + 1) :
    ∀ y ∈ flattenN chs[j], y < its[j] := by
  intro y hy
  rw [flattenL_decomp_at hj hlen] at hs
  have hs2 := (List.pairwise_append.mp hs).2.1
  exact (List.pairwise_append.mp hs2).2.2 y hy its[j] (List.mem_cons_self _ _)

/-- In a sorted flatten, everything inside child j+1 lies above item j. -/
theorem item_lt_child {its : List α} {chs : List (Node α)} {j : Nat}
    (hs : (flattenL its chs).Pairwise (· < ·))
    (hj : j < its.length) (hlen : chs.length = its.length + 1) :
    ∀ y ∈ flattenN chs[j + 1], its[j] < y := by
  intro y hy
  rw [flattenL_decomp_at hj hlen] at hs
  have hs2 := (List.pairwise_append.mp hs).2.1
  have hs3 := (List.pairwise_append.mp hs2).2.1
  have hcd : chs.drop (j + 1) = chs[j + 1] :: chs.drop (j + 2) :=
    List.drop_eq_getElem_cons (by omega)
  rw [hcd, flattenL_expand] at hs3
  exact (List.pairwise_cons.mp hs3).1 y (List.mem_append_left _ hy)

/-- On a sorted slice without the target, find reports found = false
and its index splits the slice into a strictly smaller prefix and a
strictly larger suffix. -/
theorem itemsFind_absent_char (l : List α) (x : α) (hs : l.Pairwise (· < ·))
    (habs : x ∉ l) :
    (itemsFind l x).2 = false ∧ (itemsFind l x).1 ≤ l.length ∧
      (∀ k (hk : k < l.length), k < (itemsFind l x).1 → l[k] < x) ∧
      (∀ k (hk : k < l.length), (itemsFind l x).1 ≤ k → x < l[k]) := by
  obtain ⟨hle, hlo, hhi⟩ := itemsFind_search_spec l x hs
  have hcond : ¬ (0 < sortSearch l.length (fun k => decide (x < l.getD k x)) ∧
      ¬ l.getD (sortSearch l.length (fun k => decide (x < l.getD k x)) - 1) x < x) := by
    rintro ⟨hr0, hnle⟩
    have hr1 : sortSearch l.length (fun k => decide (x < l.getD k x)) - 1 < l.length := by
      omega
    have h1 : ¬ x < l.get ⟨sortSearch l.length (fun k => decide (x < l.getD k x)) - 1, hr1⟩ :=
      hlo _ hr1 (by omega)
    rw [List.getD_eq_getElem l x hr1] at hnle
    have h2 := le_antisymm (not_lt.mp hnle) (not_lt.mp h1)
    exact habs (h2 ▸ List.getElem_mem hr1)
  have heq : itemsFind l x =
      (sortSearch l.length (fun k => decide (x < l.getD k x)), false) := by
    simp only [itemsFind]
    rw [if_neg hcond]
  rw [heq]
  refine ⟨rfl, hle, ?_, ?_⟩
  · intro k hk hkr
    have h1 := hlo k hk hkr
    have h2 : l.get ⟨k, hk⟩ ≠ x := fun he => habs (he ▸ List.getElem_mem hk)
    rcases lt_trichotomy (l.get ⟨k, hk⟩) x with h | h | h
    · exact h
    · exact absurd h h2
    · exact absurd h h1
  · intro k hk hrk
    exact hhi k hk hrk

/-- An index whose prefix is strictly below the target and whose
suffix is strictly above it is the index find returns, with
found = false. -/
theorem itemsFind_char (l : List α) (x : α) (i : Nat) (hs : l.Pairwise (· < ·))
    (hi : i ≤ l.length)
    (hlo : ∀ k (hk : k < l.length), k < i → l[k] < x)
    (hhi : ∀ k (hk : k < l.length), i ≤ k → x < l[k]) :
    itemsFind l x = (i, false) := by
  obtain ⟨hle, hlo2, hhi2⟩ := itemsFind_search_spec l x hs
  have hri : sortSearch l.length (fun k => decide (x < l.getD k x)) = i := by
    rcases lt_trichotomy (sortSearch l.length (fun k => decide (x < l.getD k x))) i
      with h | h | h
    · have hrl : sortSearch l.length (fun k => decide (x < l.getD k x)) < l.length := by
        omega
      exact absurd (lt_trans (hlo _ hrl h) (hhi2 _ hrl (le_refl _))) (lt_irrefl _)
    · exact h
    · have hil : i < l.length := by omega
      exact absurd (hhi i hil (le_refl i)) (hlo2 i hil h)
  have hcond : ¬ (0 < i ∧ ¬ l.getD (i - 1) x < x) := by
    rintro ⟨h0, hn⟩
    have hi1 : i - 1 < l.length := by omega
    rw [List.getD_eq_getElem l x hi1] at hn
    exact hn (hlo (i - 1) hi1 (by omega))
  simp only [itemsFind]
  rw [hri, if_neg hcond]

/-- Replacing a child by one with the same contents leaves the flatten
unchanged. -/
theorem flattenL_set {its : List α} {chs : List (Node α)} {j : Nat} {c2 : Node α}
    (hj : j < chs.length) (hji : j ≤ its.length)
    (hf : flattenN c2 = flattenN chs[j]) :
    flattenL its (chs.set j c2) = flattenL its chs := by
  rw [set_eq_take_cons_drop chs j c2 hj]
  conv_rhs => rw [← List.take_append_drop j chs]
  conv_lhs => rw [← List.take_append_drop j its]
  conv_rhs => rw [← List.take_append_drop j its]
  rw [flattenL_append_front _ _ _ _ (by
      simp only [List.length_take]
      omega),
    flattenL_append_front _ _ _ _ (by
      simp only [List.length_take]
      omega)]
  have hdc : chs.drop j = chs[j] :: chs.drop (j + 1) :=
    List.drop_eq_getElem_cons hj
  rw [hdc]
  cases hdi : its.drop j with
  | nil => rw [flattenL_nil_cons, flattenL_nil_cons, hf]
  | cons y ys => rw [flattenL_cons_cons, flattenL_cons_cons, hf]

/-- One step of remove on a leaf that does not hold the target: the
leaf is returned unchanged with no item. -/
theorem remove_leaf_absent {fuel : Nat} {its : List α} {cc : Option Nat} {x : α} {m : Nat}
    (hfr : (itemsFind its x).2 = false) :
    Node.remove (fuel + 1) (Node.mk its [] cc) (some x) m .removeItem =
      some (Node.mk its [] cc, none) := by
  simp [Node.remove, hfr]

/-- One unfolding of remove on an internal node whose chosen child is
large enough: make the child mutable, recurse into it and store the
returned child back. -/
theorem remove_descend_eq (fuel : Nat) {n : Node α} {x : α} {m i : Nat} {ci : Node α}
    {c : Nat}
    (hne : n.children ≠ [])
    (hcow : n.cow = some c)
    (hfr : itemsFind n.items x = (i, false))
    (hget : n.children.get? i = some ci)
    (hbig : m < ci.items.length) :
    Node.remove (fuel + 1) n (some x) m .removeItem =
      (Node.remove fuel (ci.mutableFor c) (some x) m .removeItem).map
        (fun r => (Node.mk n.items ((n.children.set i (ci.mutableFor c)).set i r.1) n.cow,
          r.2)) := by
  obtain ⟨its, chs, cc⟩ := n
  simp only [items_mk, children_mk, cow_mk] at hne hcow hfr hget ⊢
  subst hcow
  have hcl : chs.length ≠ 0 := by
    simp only [ne_eq, List.length_eq_zero]
    exact hne
  have hnbig := not_le.mpr hbig
  rw [List.get?_eq_getElem?] at hget
  cases hrec : Node.remove fuel (ci.mutableFor c) (some x) m .removeItem with
  | none => simp [Node.remove, hfr, hget, hcl, Node.mutableChild, hrec, hnbig]
  | some r => simp [Node.remove, hfr, hget, hcl, Node.mutableChild, hrec, hnbig]

/-- One unfolding of remove on an internal node whose chosen child is
too small: rebalance first, then redo the remove on the rebalanced
node with the remaining fuel. -/
theorem remove_grow_eq (fuel : Nat) {n : Node α} {x : α} {m i : Nat} {ci : Node α}
    (hne : n.children ≠ [])
    (hfr : itemsFind n.items x = (i, false))
    (hget : n.children.get? i = some ci)
    (hsmall : ci.items.length ≤ m) :
    Node.remove (fuel + 1) n (some x) m .removeItem =
      (n.growChildRebalance i m).bind
        (fun n4 => Node.remove fuel n4 (some x) m .removeItem) := by
  obtain ⟨its, chs, cc⟩ := n
  simp only [items_mk, children_mk, cow_mk] at hne hfr hget ⊢
  have hcl : chs.length ≠ 0 := by
    simp only [ne_eq, List.length_eq_zero]
    exact hne
  rw [List.get?_eq_getElem?] at hget
  cases hgrow : (Node.mk its chs cc).growChildRebalance i m with
  | none => simp [Node.remove, hfr, hget, hcl, hsmall, hgrow]
  | some n4 => simp [Node.remove, hfr, hget, hcl, hsmall, hgrow]

theorem get?_set_ne {β : Type} {l : List β} {i j : Nat} (a : β) (h : i ≠ j) :
    (l.set i a).get? j = l.get? j := by
  rw [List.get?_eq_getElem?, List.get?_eq_getElem?, List.getElem?_set_ne h]

theorem get?_of_lt {β : Type} {l : List β} {i : Nat} (h : i < l.length) :
    l.get? i = some l[i] := by
  rw [List.get?_eq_getElem?, List.getElem?_eq_getElem h]

theorem popLast_total {β : Type} {l : List β} (h : l ≠ []) :
    ∃ x l2, popLast l = some (x, l2) ∧ l = l2 ++ [x] := by
  cases hg : l.getLast? with
  | none => exact absurd (List.getLast?_eq_none_iff.mp hg) h
  | some y =>
    refine ⟨y, l.dropLast, ?_, ?_⟩
    · unfold popLast
      rw [hg]
    · exact (popLast_shape (by unfold popLast; rw [hg]))

/-- When the left sibling can spare an item, growChildRebalance steals
from it; the rebalanced node in explicit form together with the count
facts the delete argument needs. -/
theorem stealLeft_detail {its : List α} {chs : List (Node α)} {c : Nat} {i m : Nat}
    {sib chi : Node α}
    (hlen : chs.length = its.length + 1)
    (hi1 : i ≠ 0) (hile : i ≤ its.length)
    (hsib : chs.get? (i - 1) = some sib)
    (hchi : chs.get? i = some chi)
    (hcond : m < sib.items.length)
    (hICsib : IC m sib) (hICchi : IC m chi) :
    ∃ stolen child2 sf2,
      Node.growChildRebalance (Node.mk its chs (some c)) i m =
        some (Node.mk (its.set (i - 1) stolen)
          ((chs.set i child2).set (i - 1) sf2) (some c)) ∧
      stolen ∈ flattenN sib ∧ m < child2.items.length ∧ IC m child2 ∧ IC m sf2 := by
  have hilt : i < chs.length := by omega
  have hi1lt : i - 1 < its.length := by omega
  have hsibne : sib.items ≠ [] := by
    intro h0
    rw [h0] at hcond
    simp at hcond
  obtain ⟨stolen, sfIts, hpop, hdecomp⟩ := popLast_total hsibne
  have hmc1 : (Node.mk its chs (some c)).mutableChild i =
      some (Node.mk its (chs.set i (chi.mutableFor c)) (some c), chi.mutableFor c) := by
    unfold Node.mutableChild
    simp only [children_mk, cow_mk, items_mk]
    rw [hchi]
  have hmc2 : (Node.mk its (chs.set i (chi.mutableFor c)) (some c)).mutableChild (i - 1) =
      some (Node.mk its ((chs.set i (chi.mutableFor c)).set (i - 1) (sib.mutableFor c))
        (some c), sib.mutableFor c) := by
    unfold Node.mutableChild
    simp only [children_mk, cow_mk, items_mk]
    rw [get?_set_ne _ (by omega), hsib]
  have hgrow : Node.growChildRebalance (Node.mk its chs (some c)) i m =
      Node.stealLeft (Node.mk its chs (some c)) i := by
    unfold Node.growChildRebalance
    simp only [items_mk, children_mk]
    rw [if_neg hi1, hsib]
    simp [hcond]
  have hstolen : stolen ∈ flattenN sib := by
    rw [flattenN_def]
    refine (items_sublist_flattenL sib.children sib.items).subset ?_
    rw [hdecomp]
    simp
  have hsfitsLen : m ≤ sfIts.length := by
    have h1 := congrArg List.length hdecomp
    simp at h1
    omega
  rw [hgrow]
  unfold Node.stealLeft
  rw [hmc1]
  dsimp only [items_mk, children_mk, cow_mk]
  rw [hmc2]
  dsimp only [items_mk, children_mk, cow_mk]
  simp only [items_mutableFor, children_mutableFor, cow_mutableFor]
  rw [hpop]
  dsimp only [items_mk, children_mk, cow_mk]
  rw [get?_of_lt hi1lt]
  dsimp only [items_mk, children_mk, cow_mk]
  rw [insertAt_zero]
  dsimp only [items_mk, children_mk, cow_mk]
  by_cases hsc : 0 < sib.children.length
  · rw [if_pos hsc]
    have hscne : sib.children ≠ [] := by
      intro h0
      rw [h0] at hsc
      simp at hsc
    obtain ⟨sfLastCh, sfChs, hpopC, hdecompC⟩ := popLast_total hscne
    rw [hpopC]
    dsimp only [items_mk, children_mk, cow_mk]
    rw [insertAt_zero]
    dsimp only [items_mk, children_mk, cow_mk]
    refine ⟨stolen,
      Node.mk (its[i - 1] :: chi.items) (sfLastCh :: chi.children) (some c),
      Node.mk sfIts sfChs (some c), ?_, hstolen, ?_, ?_, ?_⟩
    · have hE : (((chs.set i (chi.mutableFor c)).set (i - 1) (sib.mutableFor c)).set i
            (Node.mk (its[i - 1] :: chi.items) (sfLastCh :: chi.children)
              (some c))).set (i - 1) (Node.mk sfIts sfChs (some c))
          = (chs.set i (Node.mk (its[i - 1] :: chi.items)
              (sfLastCh :: chi.children) (some c))).set (i - 1)
              (Node.mk sfIts sfChs (some c)) := by
        rw [List.set_comm _ _ _ (by omega : i - 1 ≠ i), List.set_set, List.set_set]
      rw [hE]
    · simp only [items_mk, List.length_cons]
      have := IC_items hICchi
      omega
    · refine IC.mk ?_ ?_
      · simp only [List.length_cons]
        have := IC_items hICchi
        omega
      · intro u hu
        rcases List.mem_cons.mp hu with rfl | hu2
        · refine IC_children hICsib _ ?_
          rw [hdecompC]
          simp
        · exact IC_children hICchi _ hu2
    · refine IC.mk hsfitsLen ?_
      intro u hu
      refine IC_children hICsib _ ?_
      rw [hdecompC]
      exact List.mem_append_left _ hu
  · rw [if_neg hsc]
    refine ⟨stolen,
      Node.mk (its[i - 1] :: chi.items) chi.children (some c),
      Node.mk sfIts sib.children (some c), ?_, hstolen, ?_, ?_, ?_⟩
    · have hE : (((chs.set i (chi.mutableFor c)).set (i - 1) (sib.mutableFor c)).set i
            (Node.mk (its[i - 1] :: chi.items) chi.children
              (some c))).set (i - 1) (Node.mk sfIts sib.children (some c))
          = (chs.set i (Node.mk (its[i - 1] :: chi.items)
              chi.children (some c))).set (i - 1)
              (Node.mk sfIts sib.children (some c)) := by
        rw [List.set_comm _ _ _ (by omega : i - 1 ≠ i), List.set_set, List.set_set]
      rw [hE]
    · simp only [items_mk, List.length_cons]
      have := IC_items hICchi
      omega
    · refine IC.mk ?_ ?_
      · simp only [List.length_cons]
        have := IC_items hICchi
        omega
      · intro u hu
        exact IC_children hICchi _ hu
    · exact IC.mk hsfitsLen (fun u hu => IC_children hICsib _ hu)

theorem removeAt_zero_total {β : Type} {l : List β} (h : l ≠ []) :
    ∃ x t, removeAt l 0 = some (x, t) ∧ l = x :: t := by
  have h0 : 0 < l.length := List.length_pos.mpr h
  cases hr : removeAt l 0 with
  | none =>
    unfold removeAt at hr
    rw [dif_pos h0] at hr
    exact absurd hr (by simp)
  | some p =>
    obtain ⟨x, t⟩ := p
    exact ⟨x, t, rfl, removeAt_zero_shape hr⟩

/-- When only the right sibling can spare an item, growChildRebalance
steals from it; explicit form plus count facts. -/
theorem stealRight_detail {its : List α} {chs : List (Node α)} {c : Nat} {i m : Nat}
    {sib chi : Node α}
    (hlen : chs.length = its.length + 1)
    (hilt2 : i < its.length)
    (hnoleft : i = 0 ∨ ∀ sL, chs.get? (i - 1) = some sL → sL.items.length ≤ m)
    (hsib : chs.get? (i + 1) = some sib)
    (hchi : chs.get? i = some chi)
    (hcond : m < sib.items.length)
    (hICsib : IC m sib) (hICchi : IC m chi) :
    ∃ stolen child2 sf2,
      Node.growChildRebalance (Node.mk its chs (some c)) i m =
        some (Node.mk (its.set i stolen)
          ((chs.set i child2).set (i + 1) sf2) (some c)) ∧
      stolen ∈ flattenN sib ∧ m < child2.items.length ∧ IC m child2 ∧ IC m sf2 := by
  have hilt : i < chs.length := by omega
  have hsibne : sib.items ≠ [] := by
    intro h0
    rw [h0] at hcond
    simp at hcond
  obtain ⟨stolen, sfIts, hpop, hdecomp⟩ := removeAt_zero_total hsibne
  have hmc1 : (Node.mk its chs (some c)).mutableChild i =
      some (Node.mk its (chs.set i (chi.mutableFor c)) (some c), chi.mutableFor c) := by
    unfold Node.mutableChild
    simp only [children_mk, cow_mk, items_mk]
    rw [hchi]
  have hmc2 : (Node.mk its (chs.set i (chi.mutableFor c)) (some c)).mutableChild (i + 1) =
      some (Node.mk its ((chs.set i (chi.mutableFor c)).set (i + 1) (sib.mutableFor c))
        (some c), sib.mutableFor c) := by
    unfold Node.mutableChild
    simp only [children_mk, cow_mk, items_mk]
    rw [get?_set_ne _ (by omega), hsib]
  have hgrow : Node.growChildRebalance (Node.mk its chs (some c)) i m =
      Node.stealRight (Node.mk its chs (some c)) i := by
    unfold Node.growChildRebalance
    simp only [items_mk, children_mk]
    have hcondR : (if i < its.length then
        Option.map (fun u => decide (m < u.items.length)) (chs.get? (i + 1))
        else some false) = some true := by
      rw [if_pos hilt2, hsib]
      simp [hcond]
    by_cases h0 : i = 0
    · rw [if_pos h0]
      dsimp only
      rw [hcondR]
    · have hi1lt : i - 1 < chs.length := by omega
      have hle : chs[i - 1].items.length ≤ m := by
        rcases hnoleft with h1 | h1
        · exact absurd h1 h0
        · exact h1 _ (get?_of_lt hi1lt)
      rw [if_neg h0, get?_of_lt hi1lt]
      simp only [Option.map_some', decide_eq_false (not_lt.mpr hle)]
      rw [hcondR]
  have hstolen : stolen ∈ flattenN sib := by
    rw [flattenN_def]
    refine (items_sublist_flattenL sib.children sib.items).subset ?_
    rw [hdecomp]
    simp
  have hsfitsLen : m ≤ sfIts.length := by
    have h1 := congrArg List.length hdecomp
    simp at h1
    omega
  rw [hgrow]
  unfold Node.stealRight
  rw [hmc1]
  dsimp only [items_mk, children_mk, cow_mk]
  rw [hmc2]
  dsimp only [items_mk, children_mk, cow_mk]
  simp only [items_mutableFor, children_mutableFor, cow_mutableFor]
  rw [hpop]
  dsimp only [items_mk, children_mk, cow_mk]
  rw [get?_of_lt hilt2]
  dsimp only [items_mk, children_mk, cow_mk]
  by_cases hsc : 0 < sib.children.length
  · rw [if_pos hsc]
    have hscne : sib.children ≠ [] := by
      intro h0
      rw [h0] at hsc
      simp at hsc
    obtain ⟨sfFirstCh, sfChs, hpopC, hdecompC⟩ := removeAt_zero_total hscne
    rw [hpopC]
    dsimp only [items_mk, children_mk, cow_mk]
    refine ⟨stolen,
      Node.mk (chi.items ++ [its[i]]) (chi.children ++ [sfFirstCh]) (some c),
      Node.mk sfIts sfChs (some c), ?_, hstolen, ?_, ?_, ?_⟩
    · have hE : (((chs.set i (chi.mutableFor c)).set (i + 1) (sib.mutableFor c)).set i
            (Node.mk (chi.items ++ [its[i]]) (chi.children ++ [sfFirstCh]) (some c))).set
            (i + 1) (Node.mk sfIts sfChs (some c))
          = (chs.set i (Node.mk (chi.items ++ [its[i]]) (chi.children ++ [sfFirstCh])
              (some c))).set (i + 1) (Node.mk sfIts sfChs (some c)) := by
        rw [List.set_comm _ _ _ (by omega : i + 1 ≠ i), List.set_set, List.set_set]
      rw [hE]
    · simp only [items_mk, List.length_append, List.length_cons, List.length_nil]
      have := IC_items hICchi
      omega
    · refine IC.mk ?_ ?_
      · simp only [List.length_append, List.length_cons, List.length_nil]
        have := IC_items hICchi
        omega
      · intro u hu
        rcases List.mem_append.mp hu with hu2 | hu2
        · exact IC_children hICchi _ hu2
        · obtain rfl : u = sfFirstCh := by simpa using hu2
          refine IC_children hICsib _ ?_
          rw [hdecompC]
          simp
    · refine IC.mk hsfitsLen ?_
      intro u hu
      refine IC_children hICsib _ ?_
      rw [hdecompC]
      simp [hu]
  · rw [if_neg hsc]
    refine ⟨stolen,
      Node.mk (chi.items ++ [its[i]]) chi.children (some c),
      Node.mk sfIts sib.children (some c), ?_, hstolen, ?_, ?_, ?_⟩
    · have hE : (((chs.set i (chi.mutableFor c)).set (i + 1) (sib.mutableFor c)).set i
            (Node.mk (chi.items ++ [its[i]]) chi.children (some c))).set
            (i + 1) (Node.mk sfIts sib.children (some c))
          = (chs.set i (Node.mk (chi.items ++ [its[i]]) chi.children
              (some c))).set (i + 1) (Node.mk sfIts sib.children (some c)) := by
        rw [List.set_comm _ _ _ (by omega : i + 1 ≠ i), List.set_set, List.set_set]
      rw [hE]
    · simp only [items_mk, List.length_append, List.length_cons, List.length_nil]
      have := IC_items hICchi
      omega
    · refine IC.mk ?_ ?_
      · simp only [List.length_append, List.length_cons, List.length_nil]
        have := IC_items hICchi
        omega
      · intro u hu
        exact IC_children hICchi _ hu
    · exact IC.mk hsfitsLen (fun u hu => IC_children hICsib _ hu)

theorem removeAt_of_lt {β : Type} {l : List β} {i : Nat} (h : i < l.length) :
    removeAt l i = some (l[i], l.take i ++ l.drop (i + 1)) := by
  unfold removeAt
  rw [dif_pos h, eraseIdx_take_drop]
  rfl

/-- When neither sibling can spare an item, growChildRebalance merges
child i with its right neighbour (after normalising the index);
explicit form plus count facts. -/
theorem mergeRight_detail {its : List α} {chs : List (Node α)} {c : Nat} {i m : Nat}
    (hlen : chs.length = its.length + 1)
    (h1 : 1 ≤ its.length)
    (hile : i ≤ its.length)
    (hnoleft : i = 0 ∨ ∀ sL, chs.get? (i - 1) = some sL → sL.items.length ≤ m)
    (hnoright : i = its.length ∨ ∀ sR, chs.get? (i + 1) = some sR → sR.items.length ≤ m)
    (hIC : ∀ ch ∈ chs, IC m ch) :
    ∃ j merged,
      (j = if its.length ≤ i then i - 1 else i) ∧
      Node.growChildRebalance (Node.mk its chs (some c)) i m =
        some (Node.mk (its.take j ++ its.drop (j + 1))
          (chs.take j ++ merged :: chs.drop (j + 2)) (some c)) ∧
      j < its.length ∧ (j = i ∨ j + 1 = i) ∧
      m < merged.items.length ∧ IC m merged := by
  have hgrow : Node.growChildRebalance (Node.mk its chs (some c)) i m =
      Node.mergeRight (Node.mk its chs (some c))
        (if its.length ≤ i then i - 1 else i) := by
    unfold Node.growChildRebalance
    simp only [items_mk, children_mk]
    have hcondR : (if i < its.length then
        Option.map (fun u => decide (m < u.items.length)) (chs.get? (i + 1))
        else some false) = some false := by
      by_cases hir : i < its.length
      · have hi1lt : i + 1 < chs.length := by omega
        have hle : chs[i + 1].items.length ≤ m := by
          rcases hnoright with h2 | h2
          · omega
          · exact h2 _ (get?_of_lt hi1lt)
        rw [if_pos hir, get?_of_lt hi1lt]
        simp only [Option.map_some', decide_eq_false (not_lt.mpr hle)]
      · rw [if_neg hir]
    by_cases h0 : i = 0
    · rw [if_pos h0]
      dsimp only
      rw [hcondR]
    · have hi1lt : i - 1 < chs.length := by omega
      have hle : chs[i - 1].items.length ≤ m := by
        rcases hnoleft with h2 | h2
        · exact absurd h2 h0
        · exact h2 _ (get?_of_lt hi1lt)
      rw [if_neg h0, get?_of_lt hi1lt]
      simp only [Option.map_some', decide_eq_false (not_lt.mpr hle)]
      rw [hcondR]
  set j := if its.length ≤ i then i - 1 else i with hj
  have hjlt : j < its.length := by
    rw [hj]
    split <;> omega
  have hji : j = i ∨ j + 1 = i := by
    rw [hj]
    split <;> omega
  have hjc : j < chs.length := by omega
  have hj1c : j + 1 < chs.length := by omega
  have hICj := hIC _ (List.getElem_mem hjc)
  have hICj1 := hIC _ (List.getElem_mem hj1c)
  have hmc1 : (Node.mk its chs (some c)).mutableChild j =
      some (Node.mk its (chs.set j (chs[j].mutableFor c)) (some c), chs[j].mutableFor c) := by
    unfold Node.mutableChild
    simp only [children_mk, cow_mk, items_mk]
    rw [get?_of_lt hjc]
  refine ⟨j, Node.mk (chs[j].items ++ its[j] :: chs[j + 1].items)
      (chs[j].children ++ chs[j + 1].children) (some c), rfl, ?_, hjlt, hji, ?_, ?_⟩
  · rw [hgrow]
    unfold Node.mergeRight
    rw [hmc1]
    dsimp only [items_mk, children_mk, cow_mk]
    rw [removeAt_of_lt hjlt]
    dsimp only [items_mk, children_mk, cow_mk]
    rw [removeAt_of_lt (by simp only [List.length_set]; exact hj1c)]
    dsimp only [items_mk, children_mk, cow_mk]
    simp only [items_mutableFor, children_mutableFor, cow_mutableFor]
    rw [List.getElem_set_ne (by omega : j ≠ j + 1)]
    have hshape : ((chs.set j (chs[j].mutableFor c)).take (j + 1) ++
          (chs.set j (chs[j].mutableFor c)).drop (j + 1 + 1)).set j
          (Node.mk (chs[j].items ++ its[j] :: chs[j + 1].items)
            (chs[j].children ++ chs[j + 1].children) (some c))
        = chs.take j ++ Node.mk (chs[j].items ++ its[j] :: chs[j + 1].items)
            (chs[j].children ++ chs[j + 1].children) (some c) :: chs.drop (j + 2) := by
      rw [← eraseIdx_take_drop]
      exact merge_chs_shape chs j (chs[j].mutableFor c) _ hj1c
    rw [hshape]
  · simp only [items_mk, List.length_append, List.length_cons]
    have := IC_items hICj
    omega
  · refine IC.mk ?_ ?_
    · simp only [List.length_append, List.length_cons]
      have := IC_items hICj
      omega
    · intro u hu
      rcases List.mem_append.mp hu with hu2 | hu2
      · exact IC_children hICj _ hu2
      · exact IC_children hICj1 _ hu2

theorem get?_set_self {β : Type} {l : List β} {i : Nat} (a : β) (h : i < l.length) :
    (l.set i a).get? i = some a := by
  rw [get?_of_lt (by simpa using h)]
  simp

theorem get?_append_length {β : Type} (l1 l2 : List β) (a : β) :
    (l1 ++ a :: l2).get? l1.length = some a := by
  induction l1 with
  | nil => simp
  | cons b t ih => simpa using ih

theorem erase_get?_lt {β : Type} : ∀ (l : List β) (j k : Nat), k < j →
    (l.take j ++ l.drop (j + 1)).get? k = l.get? k := by
  intro l
  induction l with
  | nil =>
    intro j k hk
    simp
  | cons a t ih =>
    intro j k hk
    cases j with
    | zero => omega
    | succ j2 =>
      cases k with
      | zero => simp
      | succ k2 => simpa using ih j2 k2 (by omega)

theorem erase_get?_ge {β : Type} : ∀ (l : List β) (j k : Nat), j ≤ k →
    (l.take j ++ l.drop (j + 1)).get? k = l.get? (k + 1) := by
  intro l
  induction l with
  | nil =>
    intro j k hk
    simp
  | cons a t ih =>
    intro j k hjk
    cases j with
    | zero => simp
    | succ j2 =>
      cases k with
      | zero => omega
      | succ k2 => simpa using ih j2 k2 (by omega)

/-- Plumbing for one level of remove: entering a slice-aligned node at
an index whose child is over the minimum, with the recursive result on
the mutable child given, produces the node with that child stored back
and no extracted item. -/
theorem remove_enter {f2 : Nat} {its4 : List α} {chs4 : List (Node α)} {c : Nat}
    {x : α} {m : Nat} {i4 hs : Nat} {ci child2 : Node α}
    (hlen4 : chs4.length = its4.length + 1)
    (hch4 : ∀ u ∈ chs4, WFT hs u)
    (hi4 : i4 ≤ its4.length)
    (hfr4 : itemsFind its4 x = (i4, false))
    (hci : chs4.get? i4 = some ci)
    (hbig4 : m < ci.items.length)
    (hrec : Node.remove f2 (ci.mutableFor c) (some x) m .removeItem = some (child2, none))
    (hw2 : WFT hs child2)
    (hfl2 : flattenN child2 = flattenN ci) :
    ∃ n2, Node.remove (f2 + 1) (Node.mk its4 chs4 (some c)) (some x) m .removeItem =
        some (n2, none) ∧ WFT (hs + 1) n2 ∧ flattenN n2 = flattenL its4 chs4 := by
  obtain ⟨hilt, hciEq⟩ := get?_shape hci
  have hne : chs4 ≠ [] := by
    intro h0
    rw [h0] at hilt
    simp at hilt
  have heq := remove_descend_eq f2 (n := Node.mk its4 chs4 (some c))
    hne rfl hfr4 hci hbig4
  rw [heq, hrec]
  refine ⟨Node.mk its4 ((chs4.set i4 (ci.mutableFor c)).set i4 child2) (some c),
    by simp, ?_, ?_⟩
  · rw [List.set_set]
    refine WFT.node (by simp [List.length_set, hlen4]) ?_
    intro u hu
    rcases List.mem_or_eq_of_mem_set hu with h2 | h2
    · exact hch4 _ h2
    · rw [h2]
      exact hw2
  · simp only [flattenN_mk]
    rw [List.set_set]
    refine flattenL_set hilt hi4 ?_
    rw [hfl2, hciEq]

/-- Core of the absent-delete argument: on an owned, well-formed,
globally sorted subtree that does not contain x, whose children all
carry at least m items, and which (when internal) either has an item or
only over-m children, remove runs to completion with fuel twice the
height, extracts nothing and preserves the contents. -/
theorem remove_absent :
    ∀ (fuel : Nat) {h m : Nat} {n : Node α} {x : α} {c : Nat},
      WFT h n → (flattenN n).Pairwise (· < ·) → x ∉ flattenN n →
      n.cow = some c →
      (∀ ch ∈ n.children, IC m ch) →
      (n.children = [] ∨ 1 ≤ n.items.length ∨ ∀ ch ∈ n.children, m < ch.items.length) →
      2 * h ≤ fuel →
      ∃ n2, Node.remove fuel n (some x) m .removeItem = some (n2, none) ∧
        WFT h n2 ∧ flattenN n2 = flattenN n := by
  intro fuel
  induction fuel using Nat.strong_induction_on with
  | _ fuel IH =>
    intro h m n x c hw hsort habs hcow hic hroot hfuel
    obtain ⟨its, chs, cc⟩ := n
    simp only [items_mk, children_mk, cow_mk] at hic hroot hcow
    subst hcow
    simp only [flattenN_mk] at hsort habs ⊢
    have hpos : 1 ≤ h := WFT_pos hw
    by_cases hleaf : chs = []
    · subst hleaf
      obtain ⟨f, rfl⟩ : ∃ f, fuel = f + 1 := ⟨fuel - 1, by omega⟩
      rw [flattenL_nil_right] at hsort habs ⊢
      obtain ⟨hfnd, h9, h8, h7⟩ := itemsFind_absent_char its x hsort habs
      exact ⟨Node.mk its [] (some c), remove_leaf_absent hfnd, hw, by
        simp only [flattenN_mk, flattenL_nil_right]⟩
    · obtain ⟨hs, hh, hlenW, hchW⟩ := WFT_internal hw (by
        simp only [children_mk]
        exact hleaf)
      subst hh
      simp only [children_mk, items_mk] at hlenW hchW
      have hsits : its.Pairwise (· < ·) := hsort.sublist (items_sublist_flattenL chs its)
      have habsits : x ∉ its := fun hm2 =>
        habs ((items_sublist_flattenL chs its).subset hm2)
      obtain ⟨hfnd, hile, hlo, hhi⟩ := itemsFind_absent_char its x hsits habsits
      have hfr : itemsFind its x = ((itemsFind its x).1, false) := by
        rw [← hfnd]
      set i := (itemsFind its x).1 with hidef
      have hilt : i < chs.length := by omega
      have hget : chs.get? i = some chs[i] := get?_of_lt hilt
      have hICi := hic _ (List.getElem_mem hilt)
      obtain ⟨f, rfl⟩ : ∃ f, fuel = f + 1 := ⟨fuel - 1, by omega⟩
      have hspos : 1 ≤ hs := WFT_pos (hchW _ (List.getElem_mem hilt))
      by_cases hbig : m < chs[i].items.length
      · have hsub := child_flatten_sublist its chs _ hlenW (List.getElem_mem hilt)
        have hsortc : (flattenN (chs[i].mutableFor c)).Pairwise (· < ·) := by
          rw [flattenN_mutableFor]
          exact hsort.sublist hsub
        have habsc : x ∉ flattenN (chs[i].mutableFor c) := by
          rw [flattenN_mutableFor]
          exact fun hm2 => habs (hsub.subset hm2)
        obtain ⟨child2, hrec, hw2, hfl2⟩ := IH f (by omega)
          (WFT_mutableFor c (hchW _ (List.getElem_mem hilt))) hsortc habsc
          (cow_mutableFor _ _)
          (by
            rw [children_mutableFor]
            exact IC_children hICi)
          (by
            right
            left
            rw [items_mutableFor]
            omega)
          (by omega)
        obtain ⟨n2, heq, hw3, hfl3⟩ := remove_enter hlenW hchW hile hfr hget hbig
          hrec hw2 (by rw [hfl2, flattenN_mutableFor])
        exact ⟨n2, heq, hw3, hfl3⟩
      · push_neg at hbig
        have h1its : 1 ≤ its.length := by
          rcases hroot with h2 | h2 | h2
          · exact absurd h2 hleaf
          · exact h2
          · exact absurd (h2 _ (List.getElem_mem hilt)) (not_lt.mpr hbig)
        obtain ⟨f2, rfl⟩ : ∃ f2, f = f2 + 1 := ⟨f - 1, by omega⟩
        have hgroweq := remove_grow_eq (f2 + 1) (n := Node.mk its chs (some c))
          (i := i) hleaf hfr hget hbig
        rw [hgroweq]
        by_cases hA : i ≠ 0 ∧ m < chs[i - 1].items.length
        · have hsibget : chs.get? (i - 1) = some chs[i - 1] := get?_of_lt (by omega)
          obtain ⟨stolen, c2x, sf2x, hgeq, hstolen, hbig2, hICc2, hICsf⟩ :=
            stealLeft_detail (c := c) hlenW hA.1 hile hsibget hget hA.2
              (hic _ (List.getElem_mem (by omega))) hICi
          obtain ⟨hw4, hflat4⟩ := growChildRebalance_spec hw hgeq
          simp only [flattenN_mk] at hflat4
          rw [hgeq]
          obtain ⟨hs2, hh2, hlen4, hch4⟩ := WFT_internal hw4 (by
            simp only [children_mk]
            intro h0
            have h3 := congrArg List.length h0
            simp only [List.length_set, List.length_nil] at h3
            omega)
          obtain rfl : hs2 = hs := by omega
          simp only [children_mk, items_mk] at hlen4 hch4
          have hsort4 : (flattenL (its.set (i - 1) stolen)
              ((chs.set i c2x).set (i - 1) sf2x)).Pairwise (· < ·) := by
            rw [hflat4]
            exact hsort
          have habs4 : x ∉ flattenL (its.set (i - 1) stolen)
              ((chs.set i c2x).set (i - 1) sf2x) := by
            rw [hflat4]
            exact habs
          have hstlt : stolen < x := by
            have h5 : stolen < its[i - 1] :=
              child_lt_item hsort (by omega) hlenW stolen hstolen
            exact lt_trans h5 (hlo (i - 1) (by omega) (by omega))
          have hsits4 : (its.set (i - 1) stolen).Pairwise (· < ·) :=
            hsort4.sublist (items_sublist_flattenL _ _)
          have hfr4 : itemsFind (its.set (i - 1) stolen) x = (i, false) := by
            refine itemsFind_char _ x i hsits4 (by
              simp only [List.length_set]
              omega) ?_ ?_
            · intro k hk hki
              by_cases hk1 : k = i - 1
              · subst hk1
                have h6 : (its.set (i - 1) stolen).get? (i - 1) = some stolen :=
                  get?_set_self _ (by omega)
                rw [get?_of_lt hk] at h6
                rw [Option.some.inj h6]
                exact hstlt
              · have h6 : (its.set (i - 1) stolen).get? k = its.get? k :=
                  get?_set_ne _ (fun he => hk1 he.symm)
                rw [get?_of_lt hk, get?_of_lt (by
                  simp only [List.length_set] at hk
                  exact hk)] at h6
                rw [Option.some.inj h6]
                exact hlo k _ hki
            · intro k hk hik
              have h6 : (its.set (i - 1) stolen).get? k = its.get? k :=
                get?_set_ne _ (by omega)
              rw [get?_of_lt hk, get?_of_lt (by
                simp only [List.length_set] at hk
                exact hk)] at h6
              rw [Option.some.inj h6]
              exact hhi k _ hik
          have hci4 : ((chs.set i c2x).set (i - 1) sf2x).get? i = some c2x := by
            rw [get?_set_ne _ (by omega : i - 1 ≠ i)]
            exact get?_set_self _ hilt
          obtain ⟨hb4, he4⟩ := get?_shape hci4
          have hmem4 := List.getElem_mem hb4
          rw [he4] at hmem4
          have hsub4 := child_flatten_sublist _ _ _ hlen4 hmem4
          have hsortc : (flattenN (c2x.mutableFor c)).Pairwise (· < ·) := by
            rw [flattenN_mutableFor]
            exact hsort4.sublist hsub4
          have habsc : x ∉ flattenN (c2x.mutableFor c) := by
            rw [flattenN_mutableFor]
            exact fun hm2 => habs4 (hsub4.subset hm2)
          obtain ⟨child2, hrec, hw2, hfl2⟩ := IH f2 (by omega)
            (WFT_mutableFor c (hch4 _ hmem4)) hsortc habsc (cow_mutableFor _ _)
            (by
              rw [children_mutableFor]
              exact IC_children hICc2)
            (by
              right
              left
              rw [items_mutableFor]
              omega)
            (by omega)
          obtain ⟨n2, heq, hw3, hfl3⟩ := remove_enter hlen4 hch4 (by
              simp only [List.length_set]
              exact hile) hfr4 hci4 hbig2 hrec hw2
            (by rw [hfl2, flattenN_mutableFor])
          exact ⟨n2, heq, hw3, by rw [hfl3, hflat4]⟩
        · have hnoleft : i = 0 ∨ ∀ sL, chs.get? (i - 1) = some sL →
              sL.items.length ≤ m := by
            by_cases h0 : i = 0
            · exact Or.inl h0
            · right
              intro sL hsL
              have h2 : ¬ m < chs[i - 1].items.length := fun hcl => hA ⟨h0, hcl⟩
              have h3 : chs.get? (i - 1) = some chs[i - 1] := get?_of_lt (by omega)
              rw [h3] at hsL
              rw [← Option.some.inj hsL]
              exact not_lt.mp h2
          by_cases hB : ∃ hb : i < its.length, m < chs[i + 1].items.length
          · obtain ⟨hBlt, hBbig⟩ := hB
            have hsibget : chs.get? (i + 1) = some chs[i + 1] := get?_of_lt (by omega)
            obtain ⟨stolen, c2x, sf2x, hgeq, hstolen, hbig2, hICc2, hICsf⟩ :=
              stealRight_detail (c := c) hlenW hBlt hnoleft hsibget hget hBbig
                (hic _ (List.getElem_mem (by omega))) hICi
            obtain ⟨hw4, hflat4⟩ := growChildRebalance_spec hw hgeq
            simp only [flattenN_mk] at hflat4
            rw [hgeq]
            obtain ⟨hs2, hh2, hlen4, hch4⟩ := WFT_internal hw4 (by
              simp only [children_mk]
              intro h0
              have h3 := congrArg List.length h0
              simp only [List.length_set, List.length_nil] at h3
              omega)
            obtain rfl : hs2 = hs := by omega
            simp only [children_mk, items_mk] at hlen4 hch4
            have hsort4 : (flattenL (its.set i stolen)
                ((chs.set i c2x).set (i + 1) sf2x)).Pairwise (· < ·) := by
              rw [hflat4]
              exact hsort
            have habs4 : x ∉ flattenL (its.set i stolen)
                ((chs.set i c2x).set (i + 1) sf2x) := by
              rw [hflat4]
              exact habs
            have hstgt : x < stolen := by
              have h5 : its[i] < stolen :=
                item_lt_child hsort hBlt hlenW stolen hstolen
              exact lt_trans (hhi i (by omega) (le_refl i)) h5
            have hsits4 : (its.set i stolen).Pairwise (· < ·) :=
              hsort4.sublist (items_sublist_flattenL _ _)
            have hfr4 : itemsFind (its.set i stolen) x = (i, false) := by
              refine itemsFind_char _ x i hsits4 (by
                simp only [List.length_set]
                omega) ?_ ?_
              · intro k hk hki
                have h6 : (its.set i stolen).get? k = its.get? k :=
                  get?_set_ne _ (by omega)
                rw [get?_of_lt hk, get?_of_lt (by
                  simp only [List.length_set] at hk
                  exact hk)] at h6
                rw [Option.some.inj h6]
                exact hlo k _ hki
              · intro k hk hik
                by_cases hk1 : k = i
                · subst hk1
                  have h6 : (its.set i stolen).get? i = some stolen :=
                    get?_set_self _ (by
                      simp only [List.length_set] at hk
                      exact hk)
                  rw [get?_of_lt hk] at h6
                  rw [Option.some.inj h6]
                  exact hstgt
                · have h6 : (its.set i stolen).get? k = its.get? k :=
                    get?_set_ne _ (fun he => hk1 he.symm)
                  rw [get?_of_lt hk, get?_of_lt (by
                    simp only [List.length_set] at hk
                    exact hk)] at h6
                  rw [Option.some.inj h6]
                  exact hhi k _ hik
            have hci4 : ((chs.set i c2x).set (i + 1) sf2x).get? i = some c2x := by
              rw [get?_set_ne _ (by omega : i + 1 ≠ i)]
              exact get?_set_self _ hilt
            obtain ⟨hb4, he4⟩ := get?_shape hci4
            have hmem4 := List.getElem_mem hb4
            rw [he4] at hmem4
            have hsub4 := child_flatten_sublist _ _ _ hlen4 hmem4
            have hsortc : (flattenN (c2x.mutableFor c)).Pairwise (· < ·) := by
              rw [flattenN_mutableFor]
              exact hsort4.sublist hsub4
            have habsc : x ∉ flattenN (c2x.mutableFor c) := by
              rw [flattenN_mutableFor]
              exact fun hm2 => habs4 (hsub4.subset hm2)
            obtain ⟨child2, hrec, hw2, hfl2⟩ := IH f2 (by omega)
              (WFT_mutableFor c (hch4 _ hmem4)) hsortc habsc (cow_mutableFor _ _)
              (by
                rw [children_mutableFor]
                exact IC_children hICc2)
              (by
                right
                left
                rw [items_mutableFor]
                omega)
              (by omega)
            obtain ⟨n2, heq, hw3, hfl3⟩ := remove_enter hlen4 hch4 (by
                simp only [List.length_set]
                omega) hfr4 hci4 hbig2 hrec hw2
              (by rw [hfl2, flattenN_mutableFor])
            exact ⟨n2, heq, hw3, by rw [hfl3, hflat4]⟩
          · have hnoright : i = its.length ∨ ∀ sR, chs.get? (i + 1) = some sR →
                sR.items.length ≤ m := by
              by_cases hieq : i = its.length
              · exact Or.inl hieq
              · right
                intro sR hsR
                have hilt2 : i < its.length := by omega
                have h2 : ¬ m < chs[i + 1].items.length := fun hcl => hB ⟨hilt2, hcl⟩
                have h3 : chs.get? (i + 1) = some chs[i + 1] := get?_of_lt (by omega)
                rw [h3] at hsR
                rw [← Option.some.inj hsR]
                exact not_lt.mp h2
            obtain ⟨j, merged, hjdef, hgeq, hjlt, hji, hbigM, hICm⟩ :=
              mergeRight_detail (c := c) hlenW h1its hile hnoleft hnoright hic
            obtain ⟨hw4, hflat4⟩ := growChildRebalance_spec hw hgeq
            simp only [flattenN_mk] at hflat4
            rw [hgeq]
            obtain ⟨hs2, hh2, hlen4, hch4⟩ := WFT_internal hw4 (by
              simp only [children_mk]
              intro h0
              simp at h0)
            obtain rfl : hs2 = hs := by omega
            simp only [children_mk, items_mk] at hlen4 hch4
            have htl : (its.take j).length = j := by
              simp only [List.length_take]
              omega
            have hlen4its : (its.take j ++ its.drop (j + 1)).length = its.length - 1 := by
              simp only [List.length_append, List.length_take, List.length_drop]
              omega
            have hsort4 : (flattenL (its.take j ++ its.drop (j + 1))
                (chs.take j ++ merged :: chs.drop (j + 2))).Pairwise (· < ·) := by
              rw [hflat4]
              exact hsort
            have habs4 : x ∉ flattenL (its.take j ++ its.drop (j + 1))
                (chs.take j ++ merged :: chs.drop (j + 2)) := by
              rw [hflat4]
              exact habs
            have hsits4 : (its.take j ++ its.drop (j + 1)).Pairwise (· < ·) :=
              hsort4.sublist (items_sublist_flattenL _ _)
            have hfr4 : itemsFind (its.take j ++ its.drop (j + 1)) x = (j, false) := by
              refine itemsFind_char _ x j hsits4 (by omega) ?_ ?_
              · intro k hk hkj
                have h6 := erase_get?_lt its j k hkj
                rw [get?_of_lt hk, get?_of_lt (by omega)] at h6
                rw [Option.some.inj h6]
                exact hlo k _ (by omega)
              · intro k hk hkj
                have h6 := erase_get?_ge its j k hkj
                rw [get?_of_lt hk, get?_of_lt (by
                  rw [hlen4its] at hk
                  omega)] at h6
                rw [Option.some.inj h6]
                refine hhi (k + 1) _ (by omega)
            have hci4 : (chs.take j ++ merged :: chs.drop (j + 2)).get? j
                = some merged := by
              have hctl : (chs.take j).length = j := by
                simp only [List.length_take]
                omega
              have h7 := get?_append_length (chs.take j) (chs.drop (j + 2)) merged
              rw [hctl] at h7
              exact h7
            obtain ⟨hb4, he4⟩ := get?_shape hci4
            have hmem4 := List.getElem_mem hb4
            rw [he4] at hmem4
            have hsub4 := child_flatten_sublist _ _ _ hlen4 hmem4
            have hsortc : (flattenN (merged.mutableFor c)).Pairwise (· < ·) := by
              rw [flattenN_mutableFor]
              exact hsort4.sublist hsub4
            have habsc : x ∉ flattenN (merged.mutableFor c) := by
              rw [flattenN_mutableFor]
              exact fun hm2 => habs4 (hsub4.subset hm2)
            obtain ⟨child2, hrec, hw2, hfl2⟩ := IH f2 (by omega)
              (WFT_mutableFor c (hch4 _ hmem4)) hsortc habsc (cow_mutableFor _ _)
              (by
                rw [children_mutableFor]
                exact IC_children hICm)
              (by
                right
                left
                rw [items_mutableFor]
                omega)
              (by omega)
            obtain ⟨n2, heq, hw3, hfl3⟩ := remove_enter hlen4 hch4 (by omega)
              hfr4 hci4 hbigM hrec hw2
              (by rw [hfl2, flattenN_mutableFor])
            exact ⟨n2, heq, hw3, by rw [hfl3, hflat4]⟩

/-- One unfolding of Delete on a tree whose root is present and has
items: run remove on the mutable root, then rebuild the tree with the
possibly collapsed root and the adjusted length. -/
theorem delete_unfold {d len cw : Nat} {r0 : Node α} {x : α} {fuel : Nat}
    (hlen0 : ¬ r0.items.length = 0) :
    BTree.Delete fuel (⟨d, len, some r0, cw⟩ : BTree α) x =
      (Node.remove fuel (r0.mutableFor cw) (some x) (d - 1) .removeItem).map
        (fun r => ((⟨d, (match r.2 with | none => len | some _ => len - 1),
          (if r.1.items.length = 0 ∧ 0 < r.1.children.length then r.1.children.get? 0
            else some r.1), cw⟩ : BTree α), r.2)) := by
  cases hr : Node.remove fuel (r0.mutableFor cw) (some x) (d - 1) .removeItem with
  | none => simp [BTree.Delete, BTree.deleteItem, BTree.minItems, hlen0, hr]
  | some r =>
    obtain ⟨r2, out⟩ := r
    cases out with
    | none => simp [BTree.Delete, BTree.deleteItem, BTree.minItems, hlen0, hr]
    | some y => simp [BTree.Delete, BTree.deleteItem, BTree.minItems, hlen0, hr]

/-- C6: the claim that deleting an absent item leaves count and
structure unchanged is wrong about the structure (see
delete_absent_restructures) but right about the result and the count:
on a structurally valid tree (well-formed root, sorted contents,
children at least minItems full) holding no element equal to x, Delete
x returns nil and leaves the length, the contents and the degree
unchanged. -/
theorem delete_absent_none_length (t : BTree α) (x : α) (fuel : Nat)
    (hv : ∀ r, t.root = some r → ∃ h, WFT h r ∧ 2 * h ≤ fuel ∧
      (flattenN r).Pairwise (· < ·) ∧ ∀ ch ∈ r.children, IC t.minItems ch)
    (habs : x ∉ t.contents) :
    ∃ t2, BTree.Delete fuel t x = some (t2, none) ∧
      t2.length = t.length ∧ t2.contents = t.contents ∧ t2.degree = t.degree := by
  obtain ⟨d, len, root, cw⟩ := t
  cases root with
  | none => exact ⟨⟨d, len, none, cw⟩, rfl, rfl, rfl, rfl⟩
  | some r0 =>
    obtain ⟨h, hw, hfuel, hsort, hic⟩ := hv r0 rfl
    by_cases hlen0 : r0.items.length = 0
    · refine ⟨⟨d, len, some r0, cw⟩, ?_, rfl, rfl, rfl⟩
      simp [BTree.Delete, BTree.deleteItem, hlen0]
    · have hm : (⟨d, len, some r0, cw⟩ : BTree α).minItems = d - 1 := rfl
      rw [hm] at hic
      have habs0 : x ∉ flattenN r0 := habs
      have hw1 : WFT h (r0.mutableFor cw) := WFT_mutableFor _ hw
      have hfl1 : flattenN (r0.mutableFor cw) = flattenN r0 := flattenN_mutableFor _ _
      obtain ⟨r2, hrem, hw2, hfl2⟩ := remove_absent fuel hw1
        (by
          rw [hfl1]
          exact hsort)
        (by
          rw [hfl1]
          exact habs0)
        (cow_mutableFor _ _)
        (by
          rw [children_mutableFor]
          exact hic)
        (by
          right
          left
          rw [items_mutableFor]
          omega)
        hfuel
      rw [delete_unfold hlen0, hrem]
      refine ⟨⟨d, len,
        (if r2.items.length = 0 ∧ 0 < r2.children.length
          then r2.children.get? 0 else some r2), cw⟩, rfl, rfl, ?_, rfl⟩
      show (match (if r2.items.length = 0 ∧ 0 < r2.children.length
        then r2.children.get? 0 else some r2 : Option (Node α)) with
        | none => ([] : List α)
        | some r => flattenN r) = flattenN r0
      by_cases hcol : r2.items.length = 0 ∧ 0 < r2.children.length
      · rw [if_pos hcol]
        obtain ⟨hcol1, hcol2⟩ := hcol
        have hne2 : r2.children ≠ [] := by
          intro h0
          rw [h0] at hcol2
          simp at hcol2
        obtain ⟨hs2, hh2, hlen2, hch2⟩ := WFT_internal hw2 hne2
        have hl1 : r2.children.length = 1 := by omega
        obtain ⟨c0, hc0⟩ := List.length_eq_one.mp hl1
        have hget0 : r2.children.get? 0 = some c0 := by
          rw [hc0]
          rfl
        rw [hget0]
        have hits0 : r2.items = [] := List.length_eq_zero.mp hcol1
        have h8 : flattenN r2 = flattenN c0 := by
          rw [flattenN_def, hits0, hc0, flattenL_nil_cons]
        show flattenN c0 = flattenN r0
        rw [← h8, hfl2, hfl1]
      · rw [if_neg hcol]
        show flattenN r2 = flattenN r0
        rw [hfl2, hfl1]

/-- Witness: deleting the absent 5 from the valid degree-2 tree holding
1, 2, 3 returns nil and preserves length, contents and degree. -/
theorem delete_absent_none_length_witness :
    ∃ t2, BTree.Delete 4 treeThree 5 = some (t2, none) ∧
      t2.length = treeThree.length ∧ t2.contents = treeThree.contents ∧
      t2.degree = treeThree.degree := by
  have hfl : flattenN (Node.mk [(2 : Int)]
      [Node.mk [1] [] (some 0), Node.mk [3] [] (some 0)] (some 0)) = [1, 2, 3] := by
    rw [flattenN_mk, flattenL_cons_cons, flattenN_mk, flattenL_nil_right,
      flattenL_nil_cons, flattenN_mk, flattenL_nil_right]
    rfl
  refine delete_absent_none_length treeThree 5 4 ?_ ?_
  · intro r hr
    have hr2 : r = Node.mk [(2 : Int)]
        [Node.mk [1] [] (some 0), Node.mk [3] [] (some 0)] (some 0) := by
      have h3 : treeThree.root = some (Node.mk [(2 : Int)]
          [Node.mk [1] [] (some 0), Node.mk [3] [] (some 0)] (some 0)) := rfl
      rw [h3] at hr
      exact (Option.some.inj hr).symm
    subst hr2
    refine ⟨2, ?_, by omega, ?_, ?_⟩
    · refine WFT.node (by decide) ?_
      intro ch hm
      simp only [List.mem_cons, List.not_mem_nil, or_false] at hm
      rcases hm with rfl | rfl
      · exact WFT.leaf
      · exact WFT.leaf
    · rw [hfl]
      decide
    · intro ch hm
      simp only [children_mk, List.mem_cons, List.not_mem_nil, or_false] at hm
      rcases hm with rfl | rfl
      · exact IC.mk (by decide) (by
          intro u hu
          simp at hu)
      · exact IC.mk (by decide) (by
          intro u hu
          simp at hu)
  · show ¬ 5 ∈ flattenN (Node.mk [(2 : Int)]
      [Node.mk [1] [] (some 0), Node.mk [3] [] (some 0)] (some 0))
    rw [hfl]
    decide

theorem specAscend_append {σ : Type} (f : σ → α → σ × Bool) (b : α) :
    ∀ (L1 L2 : List α) (s : σ) (hit : Bool),
      specAscend f b s hit (L1 ++ L2) =
        (match specAscend f b s hit L1 with
          | (s1, hit1, true) => specAscend f b s1 hit1 L2
          | (s1, hit1, false) => (s1, hit1, false)) := by
  intro L1
  induction L1 with
  | nil =>
    intro L2 s hit
    simp [specAscend]
  | cons y ys ih =>
    intro L2 s hit
    simp only [List.cons_append, specAscend]
    by_cases hb : ¬ y < b
    · rw [if_pos hb, if_pos hb]
    · rw [if_neg hb, if_neg hb]
      by_cases hf : (f s y).2
      · rw [if_pos hf, if_pos hf]
        exact ih L2 (f s y).1 true
      · rw [if_neg hf, if_neg hf]

/-- The start index of the ascend walk: on a sorted slice, find's index
splits the slice into a strictly-below-target prefix and an
at-least-target suffix (with duplicates absent, the equal element if
present starts the suffix). -/
theorem itemsFind_start_char (l : List α) (a : α) (hs : l.Pairwise (· < ·)) :
    (itemsFind l a).1 ≤ l.length ∧
      (∀ k (hk : k < l.length), k < (itemsFind l a).1 → l[k] < a) ∧
      (∀ k (hk : k < l.length), (itemsFind l a).1 ≤ k → a ≤ l[k]) := by
  obtain ⟨hle, hlo, hhi⟩ := itemsFind_search_spec l a hs
  have hmono := List.pairwise_iff_getElem.mp hs
  simp only [itemsFind]
  split
  next hcond =>
    dsimp only
    obtain ⟨h0, hnl⟩ := hcond
    have hr1 : sortSearch l.length (fun k => decide (a < l.getD k a)) - 1 < l.length := by
      omega
    rw [List.getD_eq_getElem l a hr1] at hnl
    have heqa : l.get ⟨sortSearch l.length (fun k => decide (a < l.getD k a)) - 1, hr1⟩
        = a :=
      le_antisymm (not_lt.mp (hlo _ hr1 (by omega))) (not_lt.mp hnl)
    refine ⟨by omega, ?_, ?_⟩
    · intro k hk hklt
      exact lt_of_lt_of_le (hmono k _ hk hr1 (by omega)) (le_of_eq heqa)
    · intro k hk hkge
      rcases eq_or_lt_of_le hkge with heq | hlt2
      · subst heq
        exact le_of_eq heqa.symm
      · exact le_of_lt (hhi k hk (by omega))
  next hcond =>
    dsimp only
    push_neg at hcond
    refine ⟨hle, ?_, ?_⟩
    · intro k hk hklt
      by_cases h0 : 0 < sortSearch l.length (fun k => decide (a < l.getD k a))
      · have hnl := hcond h0
        have hr1 : sortSearch l.length (fun k => decide (a < l.getD k a)) - 1
            < l.length := by omega
        rw [List.getD_eq_getElem l a hr1] at hnl
        rcases eq_or_lt_of_le (show k ≤ sortSearch l.length
            (fun k => decide (a < l.getD k a)) - 1 by omega) with heq | hlt2
        · subst heq
          exact hnl
        · exact lt_trans (hmono k _ hk hr1 hlt2) hnl
      · omega
    · intro k hk hkge
      exact le_of_lt (hhi k hk hkge)

/-- Any element of a prefix interleave sits in one of its children or
items. -/
theorem mem_flattenP : ∀ (its1 : List α) (chs1 : List (Node α)) (y : α),
    y ∈ flattenP its1 chs1 → ∃ k, ∃ (hk1 : k < its1.length) (hk2 : k < chs1.length),
      y ∈ flattenN (chs1.get ⟨k, hk2⟩) ∨ y = its1.get ⟨k, hk1⟩ := by
  intro its1
  induction its1 with
  | nil =>
    intro chs1 y hy
    rw [flattenP_nil] at hy
    simp at hy
  | cons x its ih =>
    intro chs1 y hy
    cases chs1 with
    | nil =>
      simp [flattenP] at hy
    | cons ch chs =>
      rw [flattenP_cons] at hy
      rcases List.mem_append.mp hy with hy2 | hy2
      · exact ⟨0, by simp, by simp, Or.inl (by simpa using hy2)⟩
      · rcases List.mem_cons.mp hy2 with rfl | hy3
        · exact ⟨0, by simp, by simp, Or.inr rfl⟩
        · obtain ⟨k, hk1, hk2, hk3⟩ := ih chs y hy3
          exact ⟨k + 1, by simpa using hk1, by simpa using hk2, by simpa using hk3⟩

theorem take_get? {β : Type} : ∀ (l : List β) (n k : Nat), k < n →
    (l.take n).get? k = l.get? k := by
  intro l
  induction l with
  | nil => simp
  | cons a t ih =>
    intro n k hk
    cases n with
    | zero => omega
    | succ n2 =>
      cases k with
      | zero => simp
      | succ k2 => simpa using ih n2 k2 (by omega)

theorem drop_get? {β : Type} : ∀ (l : List β) (n k : Nat),
    (l.drop n).get? k = l.get? (n + k) := by
  intro l
  induction l with
  | nil => simp
  | cons a t ih =>
    intro n k
    cases n with
    | zero => simp
    | succ n2 => simpa [Nat.succ_add] using ih n2 k

/-- Splitting a slice at an index below which everything is under the
bound and from which everything is at least the bound, the at-least
filter keeps exactly the suffix. -/
theorem filter_drop_eq (l : List α) (a : α) (i : Nat) (hi : i ≤ l.length)
    (hlo : ∀ k (hk : k < l.length), k < i → l[k] < a)
    (hhi : ∀ k (hk : k < l.length), i ≤ k → a ≤ l[k]) :
    l.filter (fun y => decide (a ≤ y)) = l.drop i := by
  conv_lhs => rw [← List.take_append_drop i l]
  rw [List.filter_append]
  have h1 : (l.take i).filter (fun y => decide (a ≤ y)) = [] := by
    rw [List.filter_eq_nil_iff]
    intro y hy
    obtain ⟨k, hk⟩ := List.mem_iff_get?.mp hy
    have hki : k < i := by
      by_contra hge
      have hlen2 : (l.take i).length ≤ k := by
        simp only [List.length_take]
        omega
      rw [List.get?_eq_none.mpr hlen2] at hk
      exact absurd hk (by simp)
    rw [take_get? l i k hki] at hk
    obtain ⟨hkl, hkeq⟩ := get?_shape hk
    have hlt := hlo k hkl hki
    rw [hkeq] at hlt
    simp only [decide_eq_true_eq]
    exact not_le.mpr hlt
  have h2 : (l.drop i).filter (fun y => decide (a ≤ y)) = l.drop i := by
    rw [List.filter_eq_self]
    intro y hy
    obtain ⟨k, hk⟩ := List.mem_iff_get?.mp hy
    rw [drop_get? l i k] at hk
    obtain ⟨hkl, hkeq⟩ := get?_shape hk
    have hge := hhi (i + k) hkl (by omega)
    rw [hkeq] at hge
    simp only [decide_eq_true_eq]
    exact hge
  rw [h1, h2, List.nil_append]

/-- The ascend loop over a childless suffix is the spec machine on the
item list (include-start mode: no skip). -/
theorem ascLoop_leaf_spec {σ : Type}
    (iterChild : Node α → Bool → σ → Option (σ × Bool × Bool))
    (f : σ → α → σ × Bool) (a b : α) :
    ∀ (its1 : List α) (hit : Bool) (s : σ),
      ascLoop iterChild f (some a) (some b) true its1 [] hit s =
        some (specAscend f b s hit its1) := by
  intro its1
  induction its1 with
  | nil =>
    intro hit s
    rfl
  | cons y ys ih =>
    intro hit s
    simp only [ascLoop, specAscend, Bool.not_true, Bool.false_and,
      Bool.false_eq_true, if_false, decide_eq_true_eq]
    by_cases hb : ¬ y < b
    · rw [if_pos hb, if_pos hb]
    · rw [if_neg hb, if_neg hb]
      by_cases hf : (f s y).2
      · rw [if_pos hf, if_pos hf]
        exact ih true (f s y).1
      · rw [if_neg hf, if_neg hf]

/-- The ascend loop over an aligned suffix whose items are all at least
the start bound, with the child recursion already meeting its spec, is
the spec machine on the filtered interleave. -/
theorem ascLoop_spec {σ : Type}
    (iterChild : Node α → Bool → σ → Option (σ × Bool × Bool))
    (f : σ → α → σ × Bool) (a b : α) :
    ∀ (its1 : List α) (chs1 : List (Node α)) (hit : Bool) (s : σ),
      chs1.length = its1.length + 1 →
      (∀ c ∈ chs1, ∀ (hit2 : Bool) (s2 : σ), iterChild c hit2 s2 =
        some (specAscend f b s2 hit2 ((flattenN c).filter (fun y => decide (a ≤ y))))) →
      (∀ y ∈ its1, a ≤ y) →
      ascLoop iterChild f (some a) (some b) true its1 chs1 hit s =
        some (specAscend f b s hit
          ((flattenL its1 chs1).filter (fun y => decide (a ≤ y)))) := by
  intro its1
  induction its1 with
  | nil =>
    intro chs1 hit s hlen hiter hits
    match chs1, hlen with
    | [c], _ =>
      rw [show ascLoop iterChild f (some a) (some b) true [] [c] hit s
        = iterChild c hit s from rfl]
      rw [hiter c (by simp), flattenL_nil_cons]
  | cons y ys ih =>
    intro chs1 hit s hlen hiter hits
    match chs1, hlen with
    | c :: chs2, hlen =>
      have hay : a ≤ y := hits y (by simp)
      have hfc : flattenL (y :: ys) (c :: chs2) = flattenN c ++ y :: flattenL ys chs2 :=
        flattenL_cons_cons y ys c chs2
      rw [hfc, List.filter_append, List.filter_cons_of_pos (by
        simp only [decide_eq_true_eq]
        exact hay)]
      rw [specAscend_append]
      simp only [ascLoop, Bool.not_true, Bool.false_and,
        Bool.false_eq_true, if_false, decide_eq_true_eq]
      rw [hiter c (by simp)]
      rcases hsp : specAscend f b s hit ((flattenN c).filter (fun y => decide (a ≤ y)))
        with ⟨s1, hit1, ok⟩
      dsimp only
      cases ok with
      | false => rfl
      | true =>
        rw [if_pos rfl]
        simp only [specAscend]
        by_cases hb : ¬ y < b
        · rw [if_pos hb, if_pos hb]
        · rw [if_neg hb, if_neg hb]
          by_cases hf : (f s1 y).2
          · rw [if_pos hf, if_pos hf]
            exact ih chs2 true (f s1 y).1 (by
              simp only [List.length_cons] at hlen
              omega)
              (fun c2 hc2 => hiter c2 (by simp [hc2]))
              (fun z hz => hits z (by simp [hz]))
          · rw [if_neg hf, if_neg hf]

/-- The ascend iteration on a sorted, well-formed subtree with the
upper bound as stop, include-start mode: it is the spec machine run on
the elements at or above the start bound, in order. -/
theorem iterAsc_spec {σ : Type} (f : σ → α → σ × Bool) (a b : α) :
    ∀ (fuel : Nat) {h : Nat} {n : Node α},
      WFT h n → (flattenN n).Pairwise (· < ·) → h < fuel →
      ∀ (hit : Bool) (s : σ),
        iterAsc f (some a) (some b) true fuel n hit s =
          some (specAscend f b s hit
            ((flattenN n).filter (fun y => decide (a ≤ y)))) := by
  intro fuel
  induction fuel with
  | zero =>
    intro h n hw hsort hfuel
    omega
  | succ fuel ih =>
    intro h n hw hsort hfuel hit s
    obtain ⟨its, chs, cc⟩ := n
    simp only [flattenN_mk] at hsort ⊢
    have hsits : its.Pairwise (· < ·) := hsort.sublist (items_sublist_flattenL chs its)
    obtain ⟨hile, hlo, hhi⟩ := itemsFind_start_char its a hsits
    have hstep : iterAsc f (some a) (some b) true (fuel + 1) (Node.mk its chs cc) hit s
        = ascLoop (iterAsc f (some a) (some b) true fuel) f (some a) (some b) true
          (its.drop (itemsFind its a).1) (chs.drop (itemsFind its a).1) hit s := rfl
    rw [hstep]
    have hits2 : ∀ y ∈ its.drop (itemsFind its a).1, a ≤ y := by
      intro y hy
      obtain ⟨k, hk⟩ := List.mem_iff_get?.mp hy
      rw [drop_get? its _ k] at hk
      obtain ⟨hkl, hkeq⟩ := get?_shape hk
      have hge := hhi _ hkl (by omega)
      rw [hkeq] at hge
      exact hge
    by_cases hleaf : chs = []
    · subst hleaf
      rw [show (([] : List (Node α)).drop (itemsFind its a).1) = [] from by simp]
      rw [ascLoop_leaf_spec]
      rw [flattenL_nil_right, filter_drop_eq its a (itemsFind its a).1 hile hlo hhi]
    · obtain ⟨hs, hh, hlenW, hchW⟩ := WFT_internal hw (by
        simp only [children_mk]
        exact hleaf)
      subst hh
      simp only [children_mk, items_mk] at hlenW hchW
      rw [ascLoop_spec _ f a b _ _ hit s (by
          simp only [List.length_drop]
          omega)
        (by
          intro c hc hit2 s2
          have hcm : c ∈ chs := List.mem_of_mem_drop hc
          exact ih (hchW c hcm)
            (hsort.sublist (child_flatten_sublist its chs c hlenW hcm))
            (by omega) hit2 s2)
        hits2]
      have hPQ : (flattenL its chs).filter (fun y => decide (a ≤ y))
          = (flattenL (its.drop (itemsFind its a).1)
              (chs.drop (itemsFind its a).1)).filter (fun y => decide (a ≤ y)) := by
        conv_lhs => rw [← List.take_append_drop (itemsFind its a).1 its,
          ← List.take_append_drop (itemsFind its a).1 chs]
        rw [flattenL_append_front _ _ _ _ (by
          simp only [List.length_take]
          omega)]
        rw [List.filter_append]
        have hP : (flattenP (its.take (itemsFind its a).1)
            (chs.take (itemsFind its a).1)).filter (fun y => decide (a ≤ y)) = [] := by
          rw [List.filter_eq_nil_iff]
          intro y hy
          obtain ⟨k, hk1, hk2, hk3⟩ := mem_flattenP _ _ y hy
          have hki : k < (itemsFind its a).1 := by
            simp only [List.length_take] at hk1
            omega
          have hkits : k < its.length := by
            simp only [List.length_take] at hk1
            omega
          have hkchs : k < chs.length := by omega
          simp only [decide_eq_true_eq]
          refine not_le.mpr ?_
          rcases hk3 with hyc | rfl
          · have hcc : (chs.take (itemsFind its a).1).get ⟨k, hk2⟩ = chs[k] := by
              have h5 := take_get? chs (itemsFind its a).1 k hki
              rw [get?_of_lt hk2, get?_of_lt hkchs] at h5
              exact Option.some.inj h5
            rw [hcc] at hyc
            exact lt_trans (child_lt_item hsort hkits hlenW y hyc) (hlo k hkits hki)
          · have hcc : (its.take (itemsFind its a).1).get ⟨k, hk1⟩ = its[k] := by
              have h5 := take_get? its (itemsFind its a).1 k hki
              rw [get?_of_lt hk1, get?_of_lt hkits] at h5
              exact Option.some.inj h5
            rw [hcc]
            exact hlo k hkits hki
        rw [hP, List.nil_append]
      rw [hPQ]

/-- On a sorted list, the first components of the spec machine and of
the plain runner over the below-bound prefix agree: the first element
at or past the bound stops the machine with the state untouched, and a
sorted tail past it contributes nothing. -/
theorem specAscend_fst {σ : Type} (f : σ → α → σ × Bool) (b : α) :
    ∀ (L : List α) (s : σ) (hit : Bool), L.Pairwise (· < ·) →
      (specAscend f b s hit L).1 =
        (runSeq f s (L.filter (fun y => decide (y < b)))).1 := by
  intro L
  induction L with
  | nil =>
    intro s hit hsort
    rfl
  | cons y ys ih =>
    intro s hit hsort
    obtain ⟨hhead, htail⟩ := List.pairwise_cons.mp hsort
    by_cases hb : y < b
    · rw [List.filter_cons_of_pos (by
        simp only [decide_eq_true_eq]
        exact hb)]
      simp only [specAscend, runSeq]
      rw [if_neg (not_not.mpr hb)]
      by_cases hf : (f s y).2
      · rw [if_pos hf, if_pos hf]
        exact ih (f s y).1 true htail
      · rw [if_neg hf, if_neg hf]
    · rw [List.filter_cons_of_neg (by
        simp only [decide_eq_true_eq]
        exact hb)]
      have hrest : ys.filter (fun y => decide (y < b)) = [] := by
        rw [List.filter_eq_nil_iff]
        intro z hz
        simp only [decide_eq_true_eq]
        intro hzb
        exact hb (lt_trans (hhead z hz) hzb)
      rw [hrest]
      simp only [specAscend, runSeq]
      rw [if_pos hb]

/-- C7: AscendRange on a valid tree calls the iterator exactly once
per stored element x with greaterOrEqual ≤ x < lessThan, in stored
(increasing) order and for no other element, stopping early exactly
when the iterator returns false: the run equals the plain runner over
the in-order contents restricted to the half-open range. -/
theorem ascendRange_visits_range {σ : Type} (t : BTree α) (a b : α)
    (f : σ → α → σ × Bool) (s : σ) (fuel : Nat)
    (hv : ∀ r, t.root = some r → ∃ h, WFT h r ∧ h < fuel ∧
      (flattenN r).Pairwise (· < ·)) :
    BTree.AscendRange fuel t a b f s =
      some (runSeq f s (t.contents.filter (fun y => decide (a ≤ y ∧ y < b)))).1 := by
  obtain ⟨d, len, root, cw⟩ := t
  cases root with
  | none => rfl
  | some r =>
    obtain ⟨h, hw, hfuel, hsort⟩ := hv r rfl
    show (iterAsc f (some a) (some b) true fuel r false s).map (fun res => res.1)
      = some (runSeq f s ((flattenN r).filter (fun y => decide (a ≤ y ∧ y < b)))).1
    rw [iterAsc_spec f a b fuel hw hsort hfuel false s]
    simp only [Option.map_some']
    congr 1
    rw [specAscend_fst f b _ s false (hsort.sublist (List.filter_sublist _))]
    have hll : ((flattenN r).filter (fun y => decide (a ≤ y))).filter
        (fun y => decide (y < b))
        = (flattenN r).filter (fun y => decide (a ≤ y ∧ y < b)) := by
      rw [List.filter_filter]
      congr 1
      funext y
      by_cases h1 : a ≤ y
      · by_cases h2 : y < b
        · simp [h1, h2]
        · simp [h1, h2]
      · by_cases h2 : y < b
        · simp [h1, h2]
        · simp [h1, h2]
    rw [hll]

/-- Witness: the range [1, 3) on the degree-2 tree holding 1, 2, 3
visits exactly 1 then 2. -/
theorem ascendRange_visits_range_witness :
    BTree.AscendRange 3 treeThree 1 3
        (fun (s : List Int) (y : Int) => (s ++ [y], true)) []
      = some (runSeq (fun (s : List Int) (y : Int) => (s ++ [y], true)) []
          (treeThree.contents.filter (fun y => decide ((1 : Int) ≤ y ∧ y < 3)))).1 :=
  ascendRange_visits_range treeThree 1 3
    (fun (s : List Int) (y : Int) => (s ++ [y], true)) [] 3 (by
      intro r hr
      have hr2 : r = Node.mk [(2 : Int)]
          [Node.mk [1] [] (some 0), Node.mk [3] [] (some 0)] (some 0) := by
        have h3 : treeThree.root = some (Node.mk [(2 : Int)]
            [Node.mk [1] [] (some 0), Node.mk [3] [] (some 0)] (some 0)) := rfl
        rw [h3] at hr
        exact (Option.some.inj hr).symm
      subst hr2
      refine ⟨2, ?_, by omega, ?_⟩
      · refine WFT.node (by decide) ?_
        intro ch hm
        simp only [List.mem_cons, List.not_mem_nil, or_false] at hm
        rcases hm with rfl | rfl
        · exact WFT.leaf
        · exact WFT.leaf
      · rw [flattenN_mk, flattenL_cons_cons, flattenN_mk, flattenL_nil_right,
          flattenL_nil_cons, flattenN_mk, flattenL_nil_right]
        decide)

end Btre
